import Mathlib

/-!
Verification of the DeepL multi-format translator core.

Strings are modelled as `List Char`.  JavaScript string primitives used by
the source (`trim`, `indexOf`-style first-occurrence search,
`String.prototype.replace` with a string pattern, including its `$`
substitution patterns) are embedded first; the modules of the program
(`utils.js` placeholder codec, `translator.js` retry client and batch
driver, the JSON/YAML document drivers, the TOML collector and the
properties handler) are embedded on top of them.
-/

namespace JsStr

/-- Character class of JavaScript `String.prototype.trim` whitespace. -/
def isJsWs (c : Char) : Bool :=
  c = ' ' || c = '\t' || c = '\n' || c.toNat = 13 || c.toNat = 11 || c.toNat = 12 ||
  c.toNat = 160 || c.toNat = 0x1680 || (0x2000 ≤ c.toNat && c.toNat ≤ 0x200a) ||
  c.toNat = 0x2028 || c.toNat = 0x2029 || c.toNat = 0x202f || c.toNat = 0x205f ||
  c.toNat = 0x3000 || c.toNat = 0xfeff

/-- JavaScript `text.trim()`: strip whitespace from both ends. -/
def jsTrim (l : List Char) : List Char :=
  ((l.dropWhile isJsWs).reverse.dropWhile isJsWs).reverse

/-- Proposition: `p` is a leading segment of `t`. -/
def Pre (p t : List Char) : Prop := ∃ r, t = p ++ r

/-- Proposition: `p` occurs somewhere inside `t` as a contiguous segment. -/
def Sub (p t : List Char) : Prop := ∃ a b, t = a ++ p ++ b

/-- Executable test for `Pre`. -/
def hasPre : List Char → List Char → Bool
  | [], _ => true
  | _ :: _, [] => false
  | a :: p, b :: t => a = b && hasPre p t

/-- Index of the first occurrence of `p` in `t` (JavaScript `indexOf`). -/
def firstOcc (p : List Char) : List Char → Option Nat
  | [] => if p.isEmpty then some 0 else none
  | c :: t => if hasPre p (c :: t) then some 0 else (firstOcc p t).map (· + 1)

/-- Executable test for `Sub`. -/
def hasSub (p t : List Char) : Bool := (firstOcc p t).isSome

/-- Proposition: `p` occurs in `t` starting at index `x`. -/
def IsAt (p t : List Char) (x : Nat) : Prop := Pre p (t.drop x)

/-- The backquote character (code 96), written by code point. -/
def bqChar : Char := Char.ofNat 96

/-- The apostrophe character (code 39), written by code point. -/
def apChar : Char := Char.ofNat 39

/-- ECMAScript GetSubstitution for a string pattern (no capture groups):
expands the replacement's dollar patterns against the matched segment and
its surrounding context, leaving unrecognised dollar sequences literal. -/
def getSubstitution (matched before after : List Char) : List Char → List Char
  | [] => []
  | c :: r =>
    if c = '$' then
      match r with
      | [] => ['$']
      | d :: r' =>
        if d = '$' then '$' :: getSubstitution matched before after r'
        else if d = '&' then matched ++ getSubstitution matched before after r'
        else if d = bqChar then before ++ getSubstitution matched before after r'
        else if d = apChar then after ++ getSubstitution matched before after r'
        else '$' :: d :: getSubstitution matched before after r'
    else c :: getSubstitution matched before after r

/-- JavaScript `t.replace(pat, repl)` with string arguments: replace the
first occurrence of `pat`, expanding dollar patterns in `repl`. -/
def replaceFirst (t pat repl : List Char) : List Char :=
  match firstOcc pat t with
  | none => t
  | some x =>
    t.take x ++ getSubstitution pat (t.take x) (t.drop (x + pat.length)) repl
      ++ t.drop (x + pat.length)

end JsStr

namespace Utils

open JsStr

/-! Embedding of `src/utils.js`: the placeholder codec.

`PROTECTED_PATTERNS` holds four regular expressions; each is embedded as a
scanner returning the list of matched substrings in left-to-right order,
reproducing `matchAll` semantics for that concrete pattern. -/

/-- The four pattern classes of `PROTECTED_PATTERNS`, in source order. -/
inductive PatClass
  | color   -- `&[0-9a-fk-or]` with the ignore-case flag
  | printf  -- `%[sdfioxXeEgGcpn]`
  | brace   -- a brace, one or more non-closing-brace characters, a brace
  | pctpct  -- `%%`
deriving DecidableEq

/-- Second characters accepted by the color-code pattern (ignore-case). -/
def colorChars : List Char :=
  "0123456789abcdefklmnorABCDEFKLMNOR".toList

/-- Second characters accepted by the printf-variable pattern. -/
def printfChars : List Char :=
  ['s','d','f','i','o','x','X','e','E','g','G','c','p','n']

/-- Two-character head test for the color-code pattern. -/
def colorOk (c1 c2 : Char) : Bool := c1 = '&' && colorChars.contains c2

/-- Two-character head test for the printf-variable pattern. -/
def printfOk (c1 c2 : Char) : Bool := c1 = '%' && printfChars.contains c2

/-- Two-character head test for the escaped double-percent pattern. -/
def pctOk (c1 c2 : Char) : Bool := c1 = '%' && c2 = '%'

/-- Global scan for a two-character pattern: at each position try the
two-character match, emit it and resume after it, else advance one. -/
def scan2 (ok : Char → Char → Bool) : List Char → List (List Char)
  | [] => []
  | [_] => []
  | c1 :: c2 :: rest =>
    if ok c1 c2 then [c1, c2] :: scan2 ok rest
    else scan2 ok (c2 :: rest)

/-- Split a character list at its first closing brace. -/
def breakAtRB : List Char → Option (List Char × List Char)
  | [] => none
  | c :: cs =>
    if c = '}' then some ([], cs)
    else (breakAtRB cs).map (fun p => (c :: p.1, p.2))

/-- Fuelled scan for the brace pattern: at a brace, the match runs to
the first closing brace provided the body is non-empty; resume after it.
Every step consumes one fuel unit and at least one character. -/
def scanBraceF : Nat → List Char → List (List Char)
  | 0, _ => []
  | _, [] => []
  | fuel + 1, c :: cs =>
    if c = '{' then
      match breakAtRB cs with
      | some (body, after) =>
        if body.isEmpty then scanBraceF fuel cs
        else ('{' :: (body ++ ['}'])) :: scanBraceF fuel after
      | none => scanBraceF fuel cs
    else scanBraceF fuel cs

/-- Global scan for the brace pattern, with enough fuel for the whole
text. -/
def scanBrace (t : List Char) : List (List Char) := scanBraceF t.length t

/-- Matched substrings of one pattern class, in occurrence order. -/
def scanClass : PatClass → List Char → List (List Char)
  | .color, t => scan2 colorOk t
  | .printf, t => scan2 printfOk t
  | .brace, t => scanBrace t
  | .pctpct, t => scan2 pctOk t

/-- The source order of `PROTECTED_PATTERNS`. -/
def PROTECTED_PATTERNS : List PatClass := [.color, .printf, .brace, .pctpct]

/-- Decimal digit character. -/
def digitChar : Nat → Char
  | 0 => '0' | 1 => '1' | 2 => '2' | 3 => '3' | 4 => '4'
  | 5 => '5' | 6 => '6' | 7 => '7' | 8 => '8' | _ => '9'

/-- Fuelled decimal representation, most significant digit first; each
step divides the argument by ten, so fuel `n + 1` always suffices. -/
def natCharsF : Nat → Nat → List Char
  | 0, _ => []
  | fuel + 1, n =>
    if n < 10 then [digitChar n]
    else natCharsF fuel (n / 10) ++ [digitChar (n % 10)]

/-- Decimal representation of a natural number. -/
def natChars (n : Nat) : List Char := natCharsF (n + 1) n

/-- The constant text of every placeholder token before its index. -/
def tokHead : List Char :=
  ['[', '[', 'P', 'R', 'O', 'T', 'E', 'C', 'T', 'E', 'D', '_']

/-- The placeholder written for index `i` in the source template. -/
def mkToken (i : Nat) : List Char := tokHead ++ natChars i ++ [']', ']']

/-- State threaded through `protectPlaceholders`: the current text, the
placeholder map (placeholder, original) in insertion order, and the
running placeholder index. -/
structure PState where
  text : List Char
  map : List (List Char × List Char)
  idx : Nat

/-- One iteration of the inner `matches.forEach` of `protectPlaceholders`:
record the mapping and replace the first occurrence of the match. -/
def protectStep (st : PState) (m : List Char) : PState :=
  { text := replaceFirst st.text m (mkToken st.idx)
    map := st.map ++ [(mkToken st.idx, m)]
    idx := st.idx + 1 }

/-- One iteration of the outer `PROTECTED_PATTERNS.forEach`: scan the
current text for the class, then substitute each match in order. -/
def protectClass (st : PState) (pc : PatClass) : PState :=
  (scanClass pc st.text).foldl protectStep st

/-- Embedding of `protectPlaceholders`: masked text and placeholder map. -/
def protectPlaceholders (t : List Char) : List Char × List (List Char × List Char) :=
  if t.isEmpty then (t, [])
  else
    let st := PROTECTED_PATTERNS.foldl protectClass ⟨t, [], 0⟩
    (st.text, st.map)

/-- Embedding of `restorePlaceholders`: replace each placeholder with its
original, walking the map in reverse insertion order. -/
def restorePlaceholders (t : List Char) (map : List (List Char × List Char)) : List Char :=
  if t.isEmpty || map.isEmpty then t
  else map.reverse.foldl (fun acc pr => replaceFirst acc pr.1 pr.2) t

/-- Embedding of `shouldTranslate`. -/
def shouldTranslate (t : List Char) : Bool :=
  if t.isEmpty then false
  else if (jsTrim t).isEmpty then false
  else if (jsTrim (protectPlaceholders t).1).isEmpty then false
  else true

/-- The restore fold without the emptiness guards: replace each
placeholder by its original, walking the map in reverse order. -/
def undo (map : List (List Char × List Char)) (t : List Char) : List Char :=
  map.reverse.foldl (fun acc pr => replaceFirst acc pr.1 pr.2) t

/-- Decimal digit character test. -/
def isDigitCh (c : Char) : Bool := 48 ≤ c.toNat && c.toNat ≤ 57

/-- Numeric value of a digit character. -/
def digitVal (c : Char) : Nat := c.toNat - 48

/-- Value of a digit string, most significant digit first. -/
def natVal (l : List Char) : Nat := l.foldl (fun a c => 10 * a + digitVal c) 0

/-- The invariant carried through the `protectPlaceholders` fold for an
original text `t0`: undoing the map restores `t0`, no token with an
index at or above the running index occurs in the current text, the
current text is dollar-free, and every recorded placeholder is
non-empty. -/
def ProtInv (t0 : List Char) (st : PState) : Prop :=
  undo st.map st.text = t0 ∧
  (∀ j, st.idx ≤ j → ¬ Sub (mkToken j) st.text) ∧
  (∀ c ∈ st.text, c ≠ '$') ∧
  ∀ pr ∈ st.map, pr.1 ≠ ([] : List Char)

/-- Mask-then-restore composition, the subject of the round-trip law. -/
def roundTrip (t : List Char) : List Char :=
  restorePlaceholders (protectPlaceholders t).1 (protectPlaceholders t).2

end Utils

namespace Translator

/-! Embedding of `src/translator.js`.

The remote transport is modelled as a trace: the list of successive
outcomes of the `fetch` calls.  Each call either resolves to an HTTP
response (status, optional translations payload, error body) or rejects
with a network error carrying an `error.code` string. -/

/-- Outcome of one `fetch` call. -/
inductive Tr
  | http (status : Nat) (payload : Option (List String)) (body : String)
  | net (code : String)
deriving DecidableEq

/-- Errors thrown out of `translateWithRetry`. -/
inductive JsError
  | maxRetries429                       -- `Max retries reached due to rate limiting`
  | apiError (status : Nat) (body : String)  -- `DeepL API error (status): body`
  | emptyResult                         -- `No translation returned from DeepL API`
  | netErr (code : String)              -- rethrown fetch rejection
  | outOfTrace                          -- model artifact: transport trace exhausted
deriving DecidableEq

/-- Retry configuration constants of the source. -/
def MAX_RETRIES : Nat := 3

/-- Base backoff delay in milliseconds. -/
def INITIAL_RETRY_DELAY : Nat := 1000

/-- Backoff cap in milliseconds. -/
def MAX_RETRY_DELAY : Nat := 10000

/-- The computed retry delay for a 1-based attempt number. -/
def retryDelay (attempt : Nat) : Nat :=
  min (INITIAL_RETRY_DELAY * 2 ^ (attempt - 1)) MAX_RETRY_DELAY

/-- Does the catch clause of `translateWithRetry` retry this error?  It
tests `error.code === ECONNRESET || error.code === ETIMEDOUT`. -/
def isNetRetryable : JsError → Bool
  | .netErr code => code = "ECONNRESET" || code = "ETIMEDOUT"
  | _ => false

/-- Result of a `translateWithRetry` run: the returned value or thrown
error, the unconsumed transport trace, and the backoff waits performed
in order. -/
structure RunResult where
  out : Except JsError String
  rest : List Tr
  waits : List Nat

/-- One frame of `translateWithRetry`, fuelled.  The recursive call on the
rate-limit path sits inside the `try` block, so an error propagating out
of it is examined by this frame's catch clause; the recursive call on the
network-error path sits inside the catch clause, so its outcome passes
through unchanged. -/
def runRetryF : Nat → List Tr → Nat → RunResult
  | 0, tr, _ => ⟨.error .outOfTrace, tr, []⟩
  | _ + 1, [], _ => ⟨.error .outOfTrace, [], []⟩
  | f + 1, .net code :: rest, attempt =>
    if attempt ≤ MAX_RETRIES ∧ (code = "ECONNRESET" ∨ code = "ETIMEDOUT") then
      let r := runRetryF f rest (attempt + 1)
      ⟨r.out, r.rest, retryDelay attempt :: r.waits⟩
    else ⟨.error (.netErr code), rest, []⟩
  | f + 1, .http status payload body :: rest, attempt =>
    if status = 429 then
      if attempt ≤ MAX_RETRIES then
        let r := runRetryF f rest (attempt + 1)
        match r.out with
        | .ok v => ⟨.ok v, r.rest, retryDelay attempt :: r.waits⟩
        | .error e =>
          if attempt ≤ MAX_RETRIES ∧ isNetRetryable e then
            let r2 := runRetryF f r.rest (attempt + 1)
            ⟨r2.out, r2.rest, retryDelay attempt :: (r.waits ++ retryDelay attempt :: r2.waits)⟩
          else ⟨.error e, r.rest, retryDelay attempt :: r.waits⟩
      else ⟨.error .maxRetries429, rest, []⟩
    else if ¬ (200 ≤ status ∧ status ≤ 299) then ⟨.error (.apiError status body), rest, []⟩
    else
      match payload with
      | none => ⟨.error .emptyResult, rest, []⟩
      | some [] => ⟨.error .emptyResult, rest, []⟩
      | some (t :: _) => ⟨.ok t, rest, []⟩

/-- Embedding of `translateWithRetry` run against a transport trace, with
enough fuel for the whole trace. -/
def translateWithRetry (trace : List Tr) : RunResult :=
  runRetryF (trace.length + 1) trace 1

/-- The body of one `translateBatch` iteration: the translated text on
success, the original text when `translateText` threw. -/
def batchItem (tr : String → Except JsError String) (t : String) : String :=
  match tr t with
  | .ok v => v
  | .error _ => t

/-- Embedding of `translateBatch`, parametric in the per-text translator
(`translateText` with its configuration). -/
def translateBatch (tr : String → Except JsError String) : List String → List String
  | [] => []
  | t :: ts => batchItem tr t :: translateBatch tr ts

end Translator

namespace Doc

open JsStr

/-! Generic document tree shared by the structured-format handlers: the
functional rendering of the parsed JavaScript value the handlers walk.
A leaf is addressed by the path of keys from the root; writing through a
unit's `(ref, key)` pair is rendered as a functional update at its path
(the tree's shape is never altered, so the two views agree). -/

/-- A key inside a container: an array index or an object property. -/
inductive Key
  | idx (n : Nat)
  | fld (s : String)
deriving DecidableEq

/-- A parsed document value. -/
inductive JValue
  | str (s : String)
  | num (n : Int)
  | bool (b : Bool)
  | null
  | arr (xs : List JValue)
  | obj (fields : List (String × JValue))

/-- Key lists of parsed objects contain no duplicates (JavaScript object
properties are unique). -/
def distinctKeys : List String → Bool
  | [] => true
  | k :: ks => !ks.contains k && distinctKeys ks

mutual

/-- Well-formedness of a parsed tree: every object has distinct keys. -/
def wfDoc : JValue → Bool
  | .arr xs => wfDocList xs
  | .obj fs => distinctKeys (fs.map Prod.fst) && wfDocFields fs
  | _ => true

/-- Well-formedness of the elements of an array. -/
def wfDocList : List JValue → Bool
  | [] => true
  | x :: xs => wfDoc x && wfDocList xs

/-- Well-formedness of the values of an object. -/
def wfDocFields : List (String × JValue) → Bool
  | [] => true
  | (_, v) :: fs => wfDoc v && wfDocFields fs

end

/-- First field of an object with the given key. -/
def lookupField : List (String × JValue) → String → Option JValue
  | [], _ => none
  | (k, v) :: fs, key => if k = key then some v else lookupField fs key

/-- Replace the value of the first field with the given key. -/
def setField : List (String × JValue) → String → JValue → List (String × JValue)
  | [], _, _ => []
  | (k, v) :: fs, key, nv => if k = key then (k, nv) :: fs else (k, v) :: setField fs key nv

/-- Replace the element at an index, when present. -/
def setIdx : List JValue → Nat → JValue → List JValue
  | [], _, _ => []
  | _ :: xs, 0, nv => nv :: xs
  | x :: xs, n + 1, nv => x :: setIdx xs n nv

/-- Subterm of a tree at a path. -/
def getAt : JValue → List Key → Option JValue
  | v, [] => some v
  | .arr xs, .idx i :: p =>
    match xs[i]? with
    | some x => getAt x p
    | none => none
  | .obj fs, .fld k :: p =>
    match lookupField fs k with
    | some v => getAt v p
    | none => none
  | _, _ => none

/-- Functional update of the subterm at a path (`item.ref[item.key] = v`
seen from the root; the paths used always address an existing leaf). -/
def updateAt : JValue → List Key → JValue → JValue
  | _, [], nv => nv
  | .arr xs, .idx i :: p, nv =>
    (match xs[i]? with
     | some x => .arr (setIdx xs i (updateAt x p nv))
     | none => .arr xs)
  | .obj fs, .fld k :: p, nv =>
    (match lookupField fs k with
     | some v => .obj (setField fs k (updateAt v p nv))
     | none => .obj fs)
  | v, _ :: _, _ => v

/-- Hexadecimal digit character. -/
def hexChar (n : Nat) : Char :=
  if n < 10 then Utils.digitChar n
  else if n = 10 then 'a' else if n = 11 then 'b' else if n = 12 then 'c'
  else if n = 13 then 'd' else if n = 14 then 'e' else 'f'

/-- JSON string escaping of one character (`JSON.stringify`). -/
def escJsonChar (c : Char) : List Char :=
  if c = '"' then ['\\', '"']
  else if c = '\\' then ['\\', '\\']
  else if c = '\n' then ['\\', 'n']
  else if c.toNat = 13 then ['\\', 'r']
  else if c = '\t' then ['\\', 't']
  else if c.toNat = 8 then ['\\', 'b']
  else if c.toNat = 12 then ['\\', 'f']
  else if c.toNat < 32 then
    ['\\', 'u', '0', '0', hexChar (c.toNat / 16), hexChar (c.toNat % 16)]
  else [c]

/-- A JSON-quoted string literal. -/
def jsonQuote (s : String) : List Char :=
  '"' :: (s.toList.flatMap escJsonChar) ++ ['"']

/-- Decimal representation of an integer. -/
def intChars (n : Int) : List Char :=
  if n < 0 then '-' :: Utils.natChars n.natAbs else Utils.natChars n.natAbs

/-- Indentation: `n` spaces. -/
def spaces (n : Nat) : List Char := List.replicate n ' '

mutual

/-- Rendering of `JSON.stringify(value, null, 2)` at an indentation. -/
def serJson (ind : Nat) : JValue → List Char
  | .str s => jsonQuote s
  | .num n => intChars n
  | .bool true => "true".toList
  | .bool false => "false".toList
  | .null => "null".toList
  | .arr [] => "[]".toList
  | .arr (x :: xs) =>
    '[' :: '\n' :: serArrItems (ind + 2) (x :: xs) ++ '\n' :: (spaces ind ++ [']'])
  | .obj [] => ['{', '}']
  | .obj (f :: fs) =>
    '{' :: '\n' :: serObjItems (ind + 2) (f :: fs) ++ '\n' :: (spaces ind ++ ['}'])

/-- Array items, one per line, comma-separated. -/
def serArrItems (ind : Nat) : List JValue → List Char
  | [] => []
  | [x] => spaces ind ++ serJson ind x
  | x :: y :: xs => spaces ind ++ serJson ind x ++ ',' :: '\n' :: serArrItems ind (y :: xs)

/-- Object entries, one per line, comma-separated. -/
def serObjItems (ind : Nat) : List (String × JValue) → List Char
  | [] => []
  | [(k, v)] => spaces ind ++ jsonQuote k ++ ':' :: ' ' :: serJson ind v
  | (k, v) :: f :: fs =>
    spaces ind ++ jsonQuote k ++ ':' :: ' ' :: serJson ind v ++ ',' :: '\n' :: serObjItems ind (f :: fs)

end

/-- Top-level `JSON.stringify(data, null, 2)`. -/
def serializeJson (v : JValue) : List Char := serJson 0 v

end Doc

namespace JsonH

open JsStr Doc Translator

/-! Embedding of `src/jsonHandler.js` (the YAML handler differs only in
its parse/serialize adapter and shares this driver-loop structure). -/

mutual

/-- Embedding of `collectTranslatableValues`: the ordered units of the
tree, each a path from the root paired with the leaf's string value. -/
def collectTranslatableValues (pre : List Key) : JValue → List (List Key × String)
  | .str s =>
    if !(jsTrim s.toList).isEmpty && !pre.isEmpty then [(pre, s)] else []
  | .arr xs => collectValuesArr pre 0 xs
  | .obj fs => collectValuesObj pre fs
  | _ => []

/-- Units of the elements of an array (`obj.forEach` with the index as
the key). -/
def collectValuesArr (pre : List Key) (i : Nat) : List JValue → List (List Key × String)
  | [] => []
  | x :: xs =>
    collectTranslatableValues (pre ++ [.idx i]) x ++ collectValuesArr pre (i + 1) xs

/-- Units of the entries of an object (`Object.entries` order). -/
def collectValuesObj (pre : List Key) : List (String × JValue) → List (List Key × String)
  | [] => []
  | (k, v) :: fs =>
    collectTranslatableValues (pre ++ [.fld k]) v ++ collectValuesObj pre fs

end

/-- Driver state: the (mutated) tree and the output file, `none` while
nothing has been written. -/
structure DState where
  tree : JValue
  output : Option (List Char)

/-- One iteration of the driver loop: on success the unit's translation
is written into the tree and the whole tree is re-serialized and written
out; when `translateText` throws, the catch block only logs and the state
is untouched. -/
def stepUnit (tr : String → Except JsError String) (st : DState) (u : List Key × String) :
    DState :=
  match tr u.2 with
  | .ok v =>
    let t := updateAt st.tree u.1 (.str v)
    ⟨t, some (serializeJson t)⟩
  | .error _ => st

/-- Embedding of `translateJsonFile` after parsing, parametric in
`translateText`: zero units return before any write; otherwise the units
are processed strictly in order. -/
def translateJsonFile (tr : String → Except JsError String) (tree : JValue) : DState :=
  let units := collectTranslatableValues [] tree
  if units.isEmpty then ⟨tree, none⟩
  else units.foldl (stepUnit tr) ⟨tree, none⟩

end JsonH

namespace TomlH

open JsStr Doc

/-! Embedding of the TOML handler's `collectTranslatableValues`, whose
emission guard is `obj.trim().length > 0 && parent && key` — the key is
tested for truthiness, not for `key !== null`. -/

/-- JavaScript truthiness of a key: index `0` and the empty property name
are falsy. -/
def keyTruthy : Key → Bool
  | .idx n => n ≠ 0
  | .fld s => s ≠ ""

mutual

/-- Embedding of the TOML `collectTranslatableValues`; `key` is the key
under which the current value sits in its parent (`none` at the root). -/
def collectTranslatableValues (pre : List Key) (key : Option Key) :
    JValue → List (List Key × String)
  | .str s =>
    (match key with
     | some k => if !(jsTrim s.toList).isEmpty && keyTruthy k then [(pre, s)] else []
     | none => [])
  | .arr xs => collectTomlArr pre 0 xs
  | .obj fs => collectTomlObj pre fs
  | _ => []

/-- TOML units of the elements of an array. -/
def collectTomlArr (pre : List Key) (i : Nat) : List JValue → List (List Key × String)
  | [] => []
  | x :: xs =>
    collectTranslatableValues (pre ++ [.idx i]) (some (.idx i)) x
      ++ collectTomlArr pre (i + 1) xs

/-- TOML units of the entries of an object. -/
def collectTomlObj (pre : List Key) : List (String × JValue) → List (List Key × String)
  | [] => []
  | (k, v) :: fs =>
    collectTranslatableValues (pre ++ [.fld k]) (some (.fld k)) v ++ collectTomlObj pre fs

end

end TomlH

namespace PropsH

open JsStr Translator

/-! Embedding of `src/propertiesHandler.js`. -/

/-- One parsed line: a passthrough line (blank, comment, or unparsable)
or a `key=value` property. -/
inductive PEntry
  | comment (content : List Char)
  | property (key value orig : List Char)
deriving DecidableEq

/-- Prepend a character to the first line of a split. -/
def consLine (c : Char) : List (List Char) → List (List Char)
  | l :: ls => (c :: l) :: ls
  | [] => [[c]]

/-- Drop each carriage return that immediately precedes a newline, so
that splitting on newlines realises the `\r?\n` separator. -/
def stripCR : List Char → List Char
  | [] => []
  | c :: rest =>
    if c.toNat = 13 ∧ rest.head? = some '\n' then stripCR rest
    else c :: stripCR rest

/-- Split on newline characters. -/
def splitNL : List Char → List (List Char)
  | [] => [[]]
  | c :: rest => if c = '\n' then [] :: splitNL rest else consLine c (splitNL rest)

/-- Split file content on `\r?\n` (a lone carriage return does not
separate lines). -/
def splitLines (l : List Char) : List (List Char) := splitNL (stripCR l)

/-- A property separator character. -/
def isSep (c : Char) : Bool := c = '=' || c = ':'

/-- Split a line at its first separator (`^([^=:]+)[=:](.*)$` means: a
non-empty separator-free key, the first separator, the rest). -/
def breakAtSep : List Char → Option (List Char × List Char)
  | [] => none
  | c :: cs =>
    if isSep c then some ([], cs)
    else (breakAtSep cs).map (fun p => (c :: p.1, p.2))

/-- Classification of one line. -/
def parsePropLine (l : List Char) : PEntry :=
  let trimmed := jsTrim l
  if trimmed.isEmpty then .comment l
  else if trimmed.head? = some '#' ∨ trimmed.head? = some '!' then .comment l
  else
    match breakAtSep l with
    | some (k, v) => if k.isEmpty then .comment l else .property (jsTrim k) (jsTrim v) l
    | none => .comment l

/-- The filter `e.type === 'property' && e.value.length > 0`. -/
def isTransl : PEntry → Bool
  | .property _ v _ => !v.isEmpty
  | _ => false

/-- Newline join. -/
def joinNL : List (List Char) → List Char
  | [] => []
  | [l] => l
  | l :: m :: ls => l ++ '\n' :: joinNL (m :: ls)

/-- Rebuild the whole file from the entry list. -/
def rebuild (entries : List PEntry) : List Char :=
  joinNL (entries.map fun e =>
    match e with
    | .comment c => c
    | .property k v _ => k ++ '=' :: v)

/-- Indices of translatable entries, in order, starting at `i`. -/
def translIdxsFrom (i : Nat) : List PEntry → List Nat
  | [] => []
  | e :: es =>
    if isTransl e then i :: translIdxsFrom (i + 1) es else translIdxsFrom (i + 1) es

/-- One loop iteration over the translatable entry at index `i`: on
success the entry's value is updated and the whole file is rebuilt and
written; on a thrown error the state is untouched. -/
def stepProp (tr : List Char → Except JsError (List Char))
    (st : List PEntry × Option (List Char)) (i : Nat) : List PEntry × Option (List Char) :=
  match st.1.get? i with
  | some (.property k v o) =>
    (match tr v with
     | .ok v' =>
       let es := st.1.set i (.property k v' o)
       (es, some (rebuild es))
     | .error _ => st)
  | _ => st

/-- Embedding of `translatePropertiesFile` after reading, parametric in
`translateText`: with no translatable entries the input content is
written verbatim; otherwise the loop runs over the translatable entries
in order. -/
def translatePropertiesFile (tr : List Char → Except JsError (List Char))
    (content : List Char) : List PEntry × Option (List Char) :=
  let entries := (splitLines content).map parsePropLine
  let ts := translIdxsFrom 0 entries
  if ts.isEmpty then (entries, some content)
  else ts.foldl (stepProp tr) (entries, none)

end PropsH

namespace Ex

open Doc Translator

/-! Concrete example data used by witnesses and counterexamples. -/

/-- A three-leaf object document. -/
def tree3 : JValue := .obj [("a", .str "A"), ("b", .str "B"), ("c", .str "C")]

/-- A translator that rejects exactly the text `B`. -/
def oracleB : String → Except JsError String :=
  fun s => if s = "B" then .error .emptyResult else .ok (s ++ "!")

/-- A document with no translatable unit. -/
def treeNum : JValue := .obj [("count", .num 7)]

/-- A single-leaf document. -/
def treeHello : JValue := .obj [("a", .str "Hello")]

/-- A translator that always throws. -/
def oracleFail : String → Except JsError String := fun _ => .error .emptyResult

/-- A 429 rate-limit transport outcome. -/
def tr429 : Tr := .http 429 none ""

/-- A connection-reset transport outcome. -/
def trReset : Tr := .net "ECONNRESET"

/-- A successful transport outcome carrying one translation. -/
def trOk (v : String) : Tr := .http 200 (some [v]) ""

end Ex

namespace Utils

theorem breakAtRB_length : ∀ cs b a, breakAtRB cs = some (b, a) →
    b.length + a.length + 1 = cs.length := by
  intro cs
  induction cs with
  | nil => intro b a h; simp [breakAtRB] at h
  | cons c cs ih =>
    intro b a h
    rw [breakAtRB] at h
    by_cases hc : c = '}'
    · rw [if_pos hc] at h
      cases h
      simp
    · rw [if_neg hc] at h
      cases hb : breakAtRB cs with
      | none => rw [hb] at h; simp at h
      | some p =>
        rw [hb] at h
        simp at h
        obtain ⟨h1, h2⟩ := h
        have hl := ih p.1 p.2 (by rw [hb])
        subst h1
        subst h2
        simp only [List.length_cons]
        omega

end Utils

/-- C10: `translateBatch` maps each input position independently through
one `translateText` call: the output has the same length, and position
`i` holds the translation when it succeeded and the original text when
it threw, regardless of the other positions' outcomes. -/
theorem C10_batch_pointwise :
    ∀ (tr : String → Except Translator.JsError String) (texts : List String) (i : Nat),
      (Translator.translateBatch tr texts).length = texts.length ∧
      (Translator.translateBatch tr texts).get? i = (texts.get? i).map (Translator.batchItem tr) := by
  intro tr texts
  induction texts with
  | nil => intro i; simp [Translator.translateBatch]
  | cons t ts ih =>
    intro i
    refine ⟨by simpa [Translator.translateBatch] using (ih 0).1, ?_⟩
    cases i with
    | zero => simp [Translator.translateBatch]
    | succ n => simpa [Translator.translateBatch] using (ih n).2

/-- C6 (code-bug evidence): `shouldTranslate` returns `true` on a bare
color code, a bare named placeholder and their mix — the masked text
consists of non-whitespace placeholder tokens, so the protected-only
check can never fire — while the claim (and the source's own comment
about not translating strings that are only formatting codes) requires
`false`; the whitespace-only and sentence cases behave as claimed. -/
theorem C6_shouldTranslate_eval :
    Utils.shouldTranslate ("&a".toList) = true ∧
    Utils.shouldTranslate ("{player}".toList) = true ∧
    Utils.shouldTranslate ("&a{player}".toList) = true ∧
    Utils.shouldTranslate ("&aHello {player}".toList) = true ∧
    Utils.shouldTranslate ("   ".toList) = false ∧
    Utils.shouldTranslate ("".toList) = false := by
  refine ⟨by decide, by decide, by decide, by decide, by decide, by decide⟩

/-- C2 (counterexample): the mask/restore pair is not the identity on a
text that already contains the literal token `[[PROTECTED_0]]` next to a
color code (restore rewrites the first, pre-existing occurrence of the
token), nor on a brace placeholder containing dollar characters (the
restore step's `replace` collapses `$$` to `$`). -/
theorem C2_counterexample :
    Utils.roundTrip ("[[PROTECTED_0]] &a".toList) ≠ "[[PROTECTED_0]] &a".toList ∧
    Utils.roundTrip ['{', '$', '$', '}'] ≠ ['{', '$', '$', '}'] := by
  refine ⟨by decide, by decide⟩

/-- C8 (counterexample): on the input brace-group containing a printf
variable, the brace class (applied after the printf class) matches the
span `[[PROTECTED_0]]` produced by the earlier substitution, so the map's
second original contains the first placeholder token. -/
theorem C8_counterexample :
    (Utils.protectPlaceholders ['{', '%', 's', '}']).2 =
      [(Utils.mkToken 0, ['%', 's']),
       (Utils.mkToken 1, '{' :: (Utils.mkToken 0 ++ ['}']))] ∧
    JsStr.hasSub (Utils.mkToken 0) ('{' :: (Utils.mkToken 0 ++ ['}'])) = true := by
  refine ⟨by decide, by decide⟩

/-- C3 (counterexample): a rate-limit failure followed by three
transient network failures and then a success — four retryable failures,
`k > 3` — still ends in success, because the network error propagating
out of the rate-limit path's recursive call re-enters the enclosing
catch clause; a fourth backoff wait of 1000 ms is performed. -/
theorem C3_counterexample :
    (Translator.translateWithRetry
        [Ex.tr429, Ex.trReset, Ex.trReset, Ex.trReset, Ex.trOk "X"]).out = .ok "X" ∧
    (Translator.translateWithRetry
        [Ex.tr429, Ex.trReset, Ex.trReset, Ex.trReset, Ex.trOk "X"]).waits =
      [1000, 2000, 4000, 1000] := by
  refine ⟨rfl, rfl⟩

/-- C4 (counterexample): a syntactically valid JSON document with zero
translatable units makes the JSON driver return before any write — no
output file exists, rather than a verbatim copy of the input. -/
theorem C4_counterexample :
    (JsonH.translateJsonFile Ex.oracleB Ex.treeNum).output = none := rfl

/-- C5 (counterexample): when the only unit's translation throws, the
driver's catch block does not write, so after that unit transition there
is no output file at all — not the serialization of the current tree. -/
theorem C5_counterexample :
    (JsonH.translateJsonFile Ex.oracleFail Ex.treeHello).output = none ∧
    (JsonH.translateJsonFile Ex.oracleFail Ex.treeHello).output ≠
      some (Doc.serializeJson (JsonH.translateJsonFile Ex.oracleFail Ex.treeHello).tree) := by
  refine ⟨rfl, ?_⟩
  intro h
  rw [show (JsonH.translateJsonFile Ex.oracleFail Ex.treeHello).output = none from rfl] at h
  exact Option.noConfusion h

/-- C7 (counterexample): the TOML collector's truthiness guard drops the
string leaf at index `0` of an array even though it has an owning
container and key; only the index-1 leaf is extracted. -/
theorem C7_counterexample :
    TomlH.collectTranslatableValues [] none
        (.obj [("msgs", .arr [.str "Hello", .str "World"])]) =
      [([Doc.Key.fld "msgs", Doc.Key.idx 1], "World")] := by
  decide

/-- C9: a non-2xx, non-429 response is thrown as a DeepL API error and
rethrown by the catch clause with no retry and no backoff (exactly one
transport call is consumed, the wait list is empty); a 2xx response with
a missing or empty translations list is thrown the same way; a network
error whose code is neither ECONNRESET nor ETIMEDOUT is likewise
rethrown immediately. -/
theorem C9_immediate_surfacing :
    (∀ s payload body rest, s ≠ 429 → ¬ (200 ≤ s ∧ s ≤ 299) →
      Translator.translateWithRetry (.http s payload body :: rest) =
        ⟨.error (.apiError s body), rest, []⟩) ∧
    (∀ s body rest, 200 ≤ s → s ≤ 299 →
      Translator.translateWithRetry (.http s none body :: rest) =
        ⟨.error .emptyResult, rest, []⟩ ∧
      Translator.translateWithRetry (.http s (some []) body :: rest) =
        ⟨.error .emptyResult, rest, []⟩) ∧
    (∀ code rest, code ≠ "ECONNRESET" → code ≠ "ETIMEDOUT" →
      Translator.translateWithRetry (.net code :: rest) =
        ⟨.error (.netErr code), rest, []⟩) := by
  refine ⟨?_, ?_, ?_⟩
  · intro s payload body rest h1 h2
    simp [Translator.translateWithRetry, Translator.runRetryF, h1, h2]
  · intro s body rest h1 h2
    have h429 : ¬ s = 429 := by omega
    have hok : 200 ≤ s ∧ s ≤ 299 := ⟨h1, h2⟩
    constructor <;>
      simp [Translator.translateWithRetry, Translator.runRetryF, h429, hok]
  · intro code rest h1 h2
    simp [Translator.translateWithRetry, Translator.runRetryF, h1, h2]

/-- C9 witness: concrete instances of the three parts — a 500 response,
a 200 response with a missing payload, and an unknown network code. -/
theorem C9_immediate_surfacing_witness :
    Translator.translateWithRetry [.http 500 none "boom"] =
      ⟨.error (.apiError 500 "boom"), [], []⟩ ∧
    Translator.translateWithRetry [.http 200 none ""] =
      ⟨.error .emptyResult, [], []⟩ ∧
    Translator.translateWithRetry [.net "EOTHER"] =
      ⟨.error (.netErr "EOTHER"), [], []⟩ :=
  ⟨C9_immediate_surfacing.1 500 none "boom" [] (by decide) (by decide),
   (C9_immediate_surfacing.2.1 200 "" [] (by decide) (by decide)).1,
   C9_immediate_surfacing.2.2 "EOTHER" [] (by decide) (by decide)⟩

/-- C3 amended: for a homogeneous run of `k` retryable failures (all
rate-limit, or all connection-reset) followed by a success, the client
succeeds when `k ≤ 3` after waiting the first `k` of 1000 ms, 2000 ms,
4000 ms, and surfaces the terminal error when `k > 3` after those three
waits; mixed sequences in which a rate-limit failure precedes a network
failure can retry more than three times (see the counterexample). -/
theorem C3_retry_bound_homogeneous :
    (∀ k, k ≤ Translator.MAX_RETRIES → ∀ v rest,
      (Translator.translateWithRetry
          (List.replicate k Ex.tr429 ++ Ex.trOk v :: rest)).out = .ok v ∧
      (Translator.translateWithRetry
          (List.replicate k Ex.tr429 ++ Ex.trOk v :: rest)).waits =
        List.take k [1000, 2000, 4000]) ∧
    (∀ k, k ≤ Translator.MAX_RETRIES → ∀ v rest,
      (Translator.translateWithRetry
          (List.replicate k Ex.trReset ++ Ex.trOk v :: rest)).out = .ok v ∧
      (Translator.translateWithRetry
          (List.replicate k Ex.trReset ++ Ex.trOk v :: rest)).waits =
        List.take k [1000, 2000, 4000]) ∧
    (∀ k, Translator.MAX_RETRIES < k → ∀ v rest,
      (Translator.translateWithRetry
          (List.replicate k Ex.tr429 ++ Ex.trOk v :: rest)).out =
        .error .maxRetries429 ∧
      (Translator.translateWithRetry
          (List.replicate k Ex.tr429 ++ Ex.trOk v :: rest)).waits =
        [1000, 2000, 4000]) ∧
    (∀ k, Translator.MAX_RETRIES < k → ∀ v rest,
      (Translator.translateWithRetry
          (List.replicate k Ex.trReset ++ Ex.trOk v :: rest)).out =
        .error (.netErr "ECONNRESET") ∧
      (Translator.translateWithRetry
          (List.replicate k Ex.trReset ++ Ex.trOk v :: rest)).waits =
        [1000, 2000, 4000]) := by
  refine ⟨?_, ?_, ?_, ?_⟩
  · intro k hk v rest
    have hk3 : k ≤ 3 := hk
    interval_cases k <;> exact ⟨rfl, rfl⟩
  · intro k hk v rest
    have hk3 : k ≤ 3 := hk
    interval_cases k <;> exact ⟨rfl, rfl⟩
  · intro k hk v rest
    obtain ⟨m, rfl⟩ : ∃ m, k = m + 4 := ⟨k - 4, by simp [Translator.MAX_RETRIES] at hk; omega⟩
    exact ⟨rfl, rfl⟩
  · intro k hk v rest
    obtain ⟨m, rfl⟩ : ∃ m, k = m + 4 := ⟨k - 4, by simp [Translator.MAX_RETRIES] at hk; omega⟩
    exact ⟨rfl, rfl⟩

/-- C3 witness: two rate-limit failures then success yields the result
after waits of 1000 ms and 2000 ms; five connection resets exhaust the
retries with a terminal network error after the three waits. -/
theorem C3_retry_bound_homogeneous_witness :
    (Translator.translateWithRetry
        (List.replicate 2 Ex.tr429 ++ Ex.trOk "hi" :: [])).out = .ok "hi" ∧
    (Translator.translateWithRetry
        (List.replicate 2 Ex.tr429 ++ Ex.trOk "hi" :: [])).waits = [1000, 2000] ∧
    (Translator.translateWithRetry
        (List.replicate 5 Ex.trReset ++ Ex.trOk "hi" :: [])).out =
      .error (.netErr "ECONNRESET") :=
  ⟨(C3_retry_bound_homogeneous.1 2 (by decide) "hi" []).1,
   (C3_retry_bound_homogeneous.1 2 (by decide) "hi" []).2,
   (C3_retry_bound_homogeneous.2.2.2 5 (by decide) "hi" []).1⟩

/-- C4 amended: a document with zero translatable units is a no-op
success, but the write-back differs by handler: the JSON (and YAML)
driver returns with the tree untouched and no output file written, while
the properties handler writes the input content to the output verbatim. -/
theorem C4_zero_units :
    (∀ (tr : String → Except Translator.JsError String) tree,
      JsonH.collectTranslatableValues [] tree = [] →
        JsonH.translateJsonFile tr tree = ⟨tree, none⟩) ∧
    (∀ (tr : List Char → Except Translator.JsError (List Char)) content,
      PropsH.translIdxsFrom 0 ((PropsH.splitLines content).map PropsH.parsePropLine) = [] →
        (PropsH.translatePropertiesFile tr content).2 = some content) := by
  constructor
  · intro tr tree h
    simp [JsonH.translateJsonFile, h]
  · intro tr content h
    simp [PropsH.translatePropertiesFile, h]

/-- C4 witness: a numeric-only JSON document produces no output file; a
comment-and-blank properties file is copied out verbatim. -/
theorem C4_zero_units_witness :
    JsonH.translateJsonFile Ex.oracleB Ex.treeNum = ⟨Ex.treeNum, none⟩ ∧
    (PropsH.translatePropertiesFile (fun v => .ok v) ("# note\n\n".toList)).2 =
      some ("# note\n\n".toList) :=
  ⟨C4_zero_units.1 Ex.oracleB Ex.treeNum rfl,
   C4_zero_units.2 (fun v => .ok v) ("# note\n\n".toList) (by decide)⟩

/-- C5 amended: a unit transition that obtains a translation (including
an untranslatable unit passed through unchanged) writes the
serialization of the updated tree to the output; a unit whose
translation throws leaves the driver state — tree and output file —
exactly as it was, so no write happens on failure. -/
theorem C5_write_discipline :
    ∀ (tr : String → Except Translator.JsError String) (st : JsonH.DState)
      (u : List Doc.Key × String),
      (∀ v, tr u.2 = .ok v →
        JsonH.stepUnit tr st u =
          ⟨Doc.updateAt st.tree u.1 (.str v),
           some (Doc.serializeJson (Doc.updateAt st.tree u.1 (.str v)))⟩) ∧
      (∀ e, tr u.2 = .error e → JsonH.stepUnit tr st u = st) := by
  intro tr st u
  constructor
  · intro v h
    simp [JsonH.stepUnit, h]
  · intro e h
    simp [JsonH.stepUnit, h]

/-- C5 witness: one successful unit writes the new tree's serialization;
one failing unit leaves the state unchanged. -/
theorem C5_write_discipline_witness :
    JsonH.stepUnit Ex.oracleB ⟨Ex.treeHello, none⟩ ([Doc.Key.fld "a"], "Hello") =
      ⟨Doc.updateAt Ex.treeHello [Doc.Key.fld "a"] (.str "Hello!"),
       some (Doc.serializeJson (Doc.updateAt Ex.treeHello [Doc.Key.fld "a"] (.str "Hello!")))⟩ ∧
    JsonH.stepUnit Ex.oracleFail ⟨Ex.treeHello, none⟩ ([Doc.Key.fld "a"], "Hello") =
      ⟨Ex.treeHello, none⟩ :=
  ⟨(C5_write_discipline Ex.oracleB ⟨Ex.treeHello, none⟩ ([Doc.Key.fld "a"], "Hello")).1
      "Hello!" rfl,
   (C5_write_discipline Ex.oracleFail ⟨Ex.treeHello, none⟩ ([Doc.Key.fld "a"], "Hello")).2
      .emptyResult rfl⟩

namespace Doc

theorem setIdx_get_self : ∀ (xs : List JValue) (i : Nat) (y : JValue),
    i < xs.length → (setIdx xs i y)[i]? = some y := by
  intro xs
  induction xs with
  | nil => intro i y h; simp at h
  | cons x xs ih =>
    intro i y h
    cases i with
    | zero => simp [setIdx]
    | succ n =>
      simp only [setIdx, List.getElem?_cons_succ]
      exact ih n y (by simp at h; omega)

theorem setIdx_get_ne : ∀ (xs : List JValue) (i j : Nat) (y : JValue),
    i ≠ j → (setIdx xs i y)[j]? = xs[j]? := by
  intro xs
  induction xs with
  | nil => intro i j y _; cases i <;> simp [setIdx]
  | cons x xs ih =>
    intro i j y hne
    cases i with
    | zero =>
      cases j with
      | zero => exact absurd rfl hne
      | succ m => simp [setIdx]
    | succ n =>
      cases j with
      | zero => simp [setIdx]
      | succ m =>
        simp only [setIdx, List.getElem?_cons_succ]
        exact ih n m y (by omega)

theorem lookupField_setField_self : ∀ (fs : List (String × JValue)) (k : String)
    (v nv : JValue), lookupField fs k = some v →
    lookupField (setField fs k nv) k = some nv := by
  intro fs
  induction fs with
  | nil => intro k v nv h; simp [lookupField] at h
  | cons f fs ih =>
    intro k v nv h
    obtain ⟨k', v'⟩ := f
    by_cases hk : k' = k
    · simp [lookupField, setField, hk]
    · simp only [lookupField, setField, if_neg hk] at h ⊢
      exact ih k v nv h

theorem lookupField_setField_ne : ∀ (fs : List (String × JValue)) (k k' : String)
    (nv : JValue), k ≠ k' →
    lookupField (setField fs k nv) k' = lookupField fs k' := by
  intro fs
  induction fs with
  | nil => intro k k' nv _; simp [lookupField, setField]
  | cons f fs ih =>
    intro k k' nv hne
    obtain ⟨k0, v0⟩ := f
    by_cases h0 : k0 = k
    · subst h0
      simp [lookupField, setField, if_neg (by exact hne)]
    · simp only [setField, if_neg h0, lookupField]
      by_cases h1 : k0 = k'
      · simp [h1]
      · simp only [if_neg h1]
        exact ih k k' nv hne

theorem lookupField_mem_keys : ∀ (fs : List (String × JValue)) (k : String) (v : JValue),
    lookupField fs k = some v → k ∈ fs.map Prod.fst := by
  intro fs
  induction fs with
  | nil => intro k v h; simp [lookupField] at h
  | cons f fs ih =>
    intro k v h
    obtain ⟨k0, v0⟩ := f
    by_cases h0 : k0 = k
    · simp [h0]
    · simp only [lookupField, if_neg h0] at h
      simp [ih k v h]

theorem lookupField_of_mem_distinct : ∀ (fs : List (String × JValue)) (k : String)
    (v : JValue), distinctKeys (fs.map Prod.fst) = true → (k, v) ∈ fs →
    lookupField fs k = some v := by
  intro fs
  induction fs with
  | nil => intro k v _ h; simp at h
  | cons f fs ih =>
    intro k v hd hm
    obtain ⟨k0, v0⟩ := f
    simp only [List.map_cons, distinctKeys, Bool.and_eq_true, Bool.not_eq_true'] at hd
    rcases List.mem_cons.mp hm with h | h
    · cases h
      simp [lookupField]
    · by_cases h0 : k0 = k
      · subst h0
        have hmem : k0 ∈ fs.map Prod.fst := List.mem_map.mpr ⟨(k0, v), h, rfl⟩
        have hnc := hd.1
        simp at hnc
        exact absurd h (hnc v)
      · simp only [lookupField, if_neg h0]
        exact ih k v hd.2 h

/-- Reading the key that sits right after a prefix of the path. -/
theorem get_append_cons : ∀ (pre : List Key) (k : Key) (rel : List Key),
    (pre ++ k :: rel).get? pre.length = some k := by
  intro pre k rel
  induction pre with
  | nil => rfl
  | cons a pre ih => simpa using ih

theorem getAt_updateAt_self : ∀ (p : List Key) (t : JValue) (s : String) (nv : JValue),
    getAt t p = some (.str s) → getAt (updateAt t p nv) p = some nv := by
  intro p
  induction p with
  | nil => intro t s nv _; simp [getAt, updateAt]
  | cons k p ih =>
    intro t s nv h
    cases t with
    | arr xs =>
      cases k with
      | idx i =>
        cases hx : xs[i]? with
        | none => simp [getAt, hx] at h
        | some x =>
          have hi : i < xs.length := List.getElem?_eq_some.mp hx |>.1
          simp only [getAt, hx] at h
          simp only [updateAt, hx, getAt, setIdx_get_self xs i _ hi]
          exact ih x s nv h
      | fld f => simp [getAt] at h
    | obj fs =>
      cases k with
      | idx i => simp [getAt] at h
      | fld f =>
        cases hx : lookupField fs f with
        | none => simp [getAt, hx] at h
        | some v =>
          simp only [getAt, hx] at h
          simp only [updateAt, hx, getAt, lookupField_setField_self fs f v _ hx]
          exact ih v s nv h
    | str s' => simp [getAt] at h
    | num n => simp [getAt] at h
    | bool b => simp [getAt] at h
    | null => simp [getAt] at h

theorem getAt_updateAt_ne : ∀ (p q : List Key) (t : JValue) (sp sq : String) (nv : JValue),
    p ≠ q → getAt t p = some (.str sp) → getAt t q = some (.str sq) →
    getAt (updateAt t q nv) p = some (.str sp) := by
  intro p
  induction p with
  | nil =>
    intro q t sp sq nv hne hp hq
    simp only [getAt, Option.some_inj] at hp
    subst hp
    cases q with
    | nil => exact absurd rfl hne
    | cons k q => cases k <;> simp [getAt] at hq
  | cons k p ih =>
    intro q t sp sq nv hne hp hq
    cases q with
    | nil =>
      simp only [getAt, Option.some_inj] at hq
      subst hq
      cases k <;> simp [getAt] at hp
    | cons k' q =>
      cases t with
      | arr xs =>
        cases k with
        | fld f => simp [getAt] at hp
        | idx i =>
          cases k' with
          | fld f => simp [getAt] at hq
          | idx j =>
            cases hx : xs[i]? with
            | none => simp [getAt, hx] at hp
            | some x =>
              simp only [getAt, hx] at hp
              by_cases hij : i = j
              · subst hij
                have hpq : p ≠ q := fun hh => hne (by rw [hh])
                cases hy : xs[i]? with
                | none => simp [getAt, hy] at hq
                | some y =>
                  simp only [getAt, hy] at hq
                  have hxy : x = y := by rw [hx] at hy; exact Option.some_inj.mp hy
                  subst hxy
                  have hi : i < xs.length := List.getElem?_eq_some.mp hx |>.1
                  simp only [updateAt, hy, getAt, setIdx_get_self xs i _ hi]
                  exact ih q x sp sq nv hpq hp hq
              · cases hy : xs[j]? with
                | none => simp [getAt, hy] at hq
                | some y =>
                  simp only [updateAt, hy, getAt, setIdx_get_ne xs j i _ (fun hh => hij hh.symm), hx]
                  exact hp
      | obj fs =>
        cases k with
        | idx i => simp [getAt] at hp
        | fld f =>
          cases k' with
          | idx j => simp [getAt] at hq
          | fld g =>
            cases hx : lookupField fs f with
            | none => simp [getAt, hx] at hp
            | some x =>
              simp only [getAt, hx] at hp
              by_cases hfg : f = g
              · subst hfg
                have hpq : p ≠ q := fun hh => hne (by rw [hh])
                cases hy : lookupField fs f with
                | none => simp [getAt, hy] at hq
                | some y =>
                  simp only [getAt, hy] at hq
                  have hxy : x = y := by rw [hx] at hy; exact Option.some_inj.mp hy
                  subst hxy
                  simp only [updateAt, hy, getAt, lookupField_setField_self fs f _ _ hy]
                  exact ih q x sp sq nv hpq hp hq
              · cases hy : lookupField fs g with
                | none => simp [getAt, hy] at hq
                | some y =>
                  simp only [updateAt, hy, getAt,
                    lookupField_setField_ne fs g f _ (fun hh => hfg hh.symm), hx]
                  exact hp
      | str s' => simp [getAt] at hp
      | num n => simp [getAt] at hp
      | bool b => simp [getAt] at hp
      | null => simp [getAt] at hp

end Doc

namespace JsonH

open Doc JsStr

mutual

theorem collect_sound : ∀ (t : JValue) (pre p : List Key) (s : String),
    wfDoc t = true → (p, s) ∈ collectTranslatableValues pre t →
    ∃ rel, p = pre ++ rel ∧ getAt t rel = some (.str s) ∧
      (jsTrim s.toList).isEmpty = false := by
  intro t pre p s hwf hm
  cases t with
  | str s0 =>
    simp only [collectTranslatableValues] at hm
    by_cases hc : (!(jsTrim s0.toList).isEmpty && !pre.isEmpty) = true
    · rw [if_pos hc] at hm
      simp only [List.mem_singleton, Prod.mk.injEq] at hm
      obtain ⟨h1, h2⟩ := hm
      subst h1; subst h2
      refine ⟨[], by simp, by simp [getAt], ?_⟩
      simp only [Bool.and_eq_true, Bool.not_eq_true'] at hc
      exact hc.1
    · rw [if_neg hc] at hm
      simp at hm
  | arr xs =>
    simp only [collectTranslatableValues] at hm
    have hwl : wfDocList xs = true := by simpa [wfDoc] using hwf
    obtain ⟨j, x, rel, hx, hp, hg, ht⟩ := collect_sound_arr xs pre 0 p s hwl hm
    refine ⟨.idx j :: rel, by simpa using hp, ?_, ht⟩
    simp [getAt, hx, hg]
  | obj fs =>
    simp only [collectTranslatableValues] at hm
    have hw : distinctKeys (fs.map Prod.fst) = true ∧ wfDocFields fs = true := by
      simpa [wfDoc] using hwf
    obtain ⟨k, v, rel, hk, hp, hg, ht⟩ := collect_sound_obj fs pre p s hw.1 hw.2 hm
    refine ⟨.fld k :: rel, hp, ?_, ht⟩
    simp [getAt, hk, hg]
  | num n => simp [collectTranslatableValues] at hm
  | bool b => simp [collectTranslatableValues] at hm
  | null => simp [collectTranslatableValues] at hm

theorem collect_sound_arr : ∀ (xs : List JValue) (pre : List Key) (i : Nat)
    (p : List Key) (s : String),
    wfDocList xs = true → (p, s) ∈ collectValuesArr pre i xs →
    ∃ j x rel, xs[j]? = some x ∧ p = pre ++ .idx (i + j) :: rel ∧
      getAt x rel = some (.str s) ∧ (jsTrim s.toList).isEmpty = false := by
  intro xs
  match xs with
  | [] => intro pre i p s _ hm; simp [collectValuesArr] at hm
  | x :: xs =>
    intro pre i p s hwf hm
    have hw : wfDoc x = true ∧ wfDocList xs = true := by
      simpa [wfDocList] using hwf
    simp only [collectValuesArr, List.mem_append] at hm
    rcases hm with hm | hm
    · obtain ⟨rel, hp, hg, ht⟩ := collect_sound x (pre ++ [.idx i]) p s hw.1 hm
      exact ⟨0, x, rel, by simp, by simpa using hp, hg, ht⟩
    · obtain ⟨j, y, rel, hy, hp, hg, ht⟩ := collect_sound_arr xs pre (i + 1) p s hw.2 hm
      refine ⟨j + 1, y, rel, by simpa using hy, ?_, hg, ht⟩
      have hj : i + (j + 1) = i + 1 + j := by omega
      rw [hj]
      exact hp

theorem collect_sound_obj : ∀ (fs : List (String × JValue)) (pre p : List Key)
    (s : String),
    distinctKeys (fs.map Prod.fst) = true → wfDocFields fs = true →
    (p, s) ∈ collectValuesObj pre fs →
    ∃ k v rel, lookupField fs k = some v ∧ p = pre ++ .fld k :: rel ∧
      getAt v rel = some (.str s) ∧ (jsTrim s.toList).isEmpty = false := by
  intro fs
  match fs with
  | [] => intro pre p s _ _ hm; simp [collectValuesObj] at hm
  | (k0, v0) :: fs =>
    intro pre p s hd hwf hm
    have hw : wfDoc v0 = true ∧ wfDocFields fs = true := by
      simpa [wfDocFields] using hwf
    have hd' : (!(fs.map Prod.fst).contains k0 && distinctKeys (fs.map Prod.fst)) = true := by
      simpa [distinctKeys] using hd
    simp only [Bool.and_eq_true, Bool.not_eq_true'] at hd'
    simp only [collectValuesObj, List.mem_append] at hm
    rcases hm with hm | hm
    · obtain ⟨rel, hp, hg, ht⟩ := collect_sound v0 (pre ++ [.fld k0]) p s hw.1 hm
      refine ⟨k0, v0, rel, by simp [lookupField], by simpa using hp, hg, ht⟩
    · obtain ⟨k, v, rel, hk, hp, hg, ht⟩ := collect_sound_obj fs pre p s hd'.2 hw.2 hm
      have hne : k0 ≠ k := by
        intro hkk
        subst hkk
        have := lookupField_mem_keys fs k0 v hk
        have hnc := hd'.1
        simp at hnc
        obtain ⟨xv, hxv⟩ := List.mem_map.mp this
        exact hnc xv.2 (by rw [← hxv.2]; simpa using hxv.1)
      exact ⟨k, v, rel, by simp [lookupField, if_neg hne, hk], hp, hg, ht⟩

end

end JsonH

namespace JsonH

open Doc JsStr

mutual

theorem collect_nodup : ∀ (t : JValue) (pre : List Key), wfDoc t = true →
    List.Pairwise (fun a b => a.1 ≠ b.1) (collectTranslatableValues pre t) := by
  intro t pre hwf
  cases t with
  | str s0 =>
    simp only [collectTranslatableValues]
    by_cases hc : (!(jsTrim s0.toList).isEmpty && !pre.isEmpty) = true
    · rw [if_pos hc]; simp
    · rw [if_neg hc]; simp
  | arr xs =>
    have hwl : wfDocList xs = true := by simpa [wfDoc] using hwf
    simpa only [collectTranslatableValues] using collect_nodup_arr xs pre 0 hwl
  | obj fs =>
    have hw : distinctKeys (fs.map Prod.fst) = true ∧ wfDocFields fs = true := by
      simpa [wfDoc] using hwf
    simpa only [collectTranslatableValues] using collect_nodup_obj fs pre hw.1 hw.2
  | num n => simp [collectTranslatableValues]
  | bool b => simp [collectTranslatableValues]
  | null => simp [collectTranslatableValues]

theorem collect_nodup_arr : ∀ (xs : List JValue) (pre : List Key) (i : Nat),
    wfDocList xs = true →
    List.Pairwise (fun a b => a.1 ≠ b.1) (collectValuesArr pre i xs) := by
  intro xs
  match xs with
  | [] => intro pre i _; simp [collectValuesArr]
  | x :: xs =>
    intro pre i hwf
    have hw : wfDoc x = true ∧ wfDocList xs = true := by
      simpa [wfDocList] using hwf
    simp only [collectValuesArr]
    rw [List.pairwise_append]
    refine ⟨collect_nodup x (pre ++ [.idx i]) hw.1, collect_nodup_arr xs pre (i + 1) hw.2, ?_⟩
    intro a ha b hb
    obtain ⟨relA, hpA, -, -⟩ := collect_sound x (pre ++ [.idx i]) a.1 a.2 hw.1 (by simpa using ha)
    obtain ⟨j, y, relB, -, hpB, -, -⟩ :=
      collect_sound_arr xs pre (i + 1) b.1 b.2 hw.2 (by simpa using hb)
    intro hab
    have h1 : a.1.get? pre.length = some (.idx i) := by
      rw [hpA, List.append_assoc]
      exact get_append_cons pre (.idx i) relA
    have h2 : b.1.get? pre.length = some (.idx (i + 1 + j)) := by
      rw [hpB]
      exact get_append_cons pre _ relB
    rw [hab, h2] at h1
    have hinj := Option.some_inj.mp h1
    injection hinj with hinj'
    omega

theorem collect_nodup_obj : ∀ (fs : List (String × JValue)) (pre : List Key),
    distinctKeys (fs.map Prod.fst) = true → wfDocFields fs = true →
    List.Pairwise (fun a b => a.1 ≠ b.1) (collectValuesObj pre fs) := by
  intro fs
  match fs with
  | [] => intro pre _ _; simp [collectValuesObj]
  | (k0, v0) :: fs =>
    intro pre hd hwf
    have hw : wfDoc v0 = true ∧ wfDocFields fs = true := by
      simpa [wfDocFields] using hwf
    have hd' : (!(fs.map Prod.fst).contains k0 && distinctKeys (fs.map Prod.fst)) = true := by
      simpa [distinctKeys] using hd
    simp only [Bool.and_eq_true, Bool.not_eq_true'] at hd'
    simp only [collectValuesObj]
    rw [List.pairwise_append]
    refine ⟨collect_nodup v0 (pre ++ [.fld k0]) hw.1, collect_nodup_obj fs pre hd'.2 hw.2, ?_⟩
    intro a ha b hb
    obtain ⟨relA, hpA, -, -⟩ := collect_sound v0 (pre ++ [.fld k0]) a.1 a.2 hw.1 (by simpa using ha)
    obtain ⟨k, v, relB, hkB, hpB, -, -⟩ :=
      collect_sound_obj fs pre b.1 b.2 hd'.2 hw.2 (by simpa using hb)
    intro hab
    have h1 : a.1.get? pre.length = some (.fld k0) := by
      rw [hpA, List.append_assoc]
      exact get_append_cons pre (.fld k0) relA
    have h2 : b.1.get? pre.length = some (.fld k) := by
      rw [hpB]
      exact get_append_cons pre _ relB
    rw [hab, h2] at h1
    have hinj := Option.some_inj.mp h1
    injection hinj with hinj'
    subst hinj'
    have := lookupField_mem_keys fs k v hkB
    have hnc := hd'.1
    simp at hnc
    obtain ⟨xv, hxv⟩ := List.mem_map.mp this
    exact hnc xv.2 (by rw [← hxv.2]; simpa using hxv.1)

end

end JsonH

/-- C1: for any well-formed document whose extracted unit sequence is
`[A, B, C]`, if translating `B` throws a (non-retryable) error while `A`
and `C` succeed, the driver completes with `A` and `C` holding their
translated values, `B` holding its original source value, and the output
file written as the serialization of the final tree — the unit failure
is consumed inside the loop and never escapes. -/
theorem C1_unit_isolation :
    ∀ (tree : Doc.JValue) (pA pB pC : List Doc.Key) (A B C A' C' : String)
      (e : Translator.JsError) (tr : String → Except Translator.JsError String),
      Doc.wfDoc tree = true →
      JsonH.collectTranslatableValues [] tree = [(pA, A), (pB, B), (pC, C)] →
      tr A = .ok A' → tr B = .error e → tr C = .ok C' →
      Doc.getAt (JsonH.translateJsonFile tr tree).tree pA = some (.str A') ∧
      Doc.getAt (JsonH.translateJsonFile tr tree).tree pB = some (.str B) ∧
      Doc.getAt (JsonH.translateJsonFile tr tree).tree pC = some (.str C') ∧
      (JsonH.translateJsonFile tr tree).output =
        some (Doc.serializeJson (JsonH.translateJsonFile tr tree).tree) := by
  intro tree pA pB pC A B C A' C' e tr hwf hu hA hB hC
  have memA : (pA, A) ∈ JsonH.collectTranslatableValues [] tree := by rw [hu]; simp
  have memB : (pB, B) ∈ JsonH.collectTranslatableValues [] tree := by rw [hu]; simp
  have memC : (pC, C) ∈ JsonH.collectTranslatableValues [] tree := by rw [hu]; simp
  obtain ⟨relA, hpA, hgA, -⟩ := JsonH.collect_sound tree [] pA A hwf memA
  obtain ⟨relB, hpB, hgB, -⟩ := JsonH.collect_sound tree [] pB B hwf memB
  obtain ⟨relC, hpC, hgC, -⟩ := JsonH.collect_sound tree [] pC C hwf memC
  simp only [List.nil_append] at hpA hpB hpC
  subst hpA; subst hpB; subst hpC
  have hnd := JsonH.collect_nodup tree [] hwf
  rw [hu] at hnd
  simp only [List.pairwise_cons, List.mem_cons, List.mem_singleton] at hnd
  have hAB : pA ≠ pB := hnd.1 (pB, B) (Or.inl rfl)
  have hAC : pA ≠ pC := hnd.1 (pC, C) (Or.inr (Or.inl rfl))
  have hBC : pB ≠ pC := hnd.2.1 (pC, C) (Or.inl rfl)
  have hrun : JsonH.translateJsonFile tr tree =
      ⟨Doc.updateAt (Doc.updateAt tree pA (.str A')) pC (.str C'),
       some (Doc.serializeJson
         (Doc.updateAt (Doc.updateAt tree pA (.str A')) pC (.str C')))⟩ := by
    simp [JsonH.translateJsonFile, hu, JsonH.stepUnit, hA, hB, hC]
  have gA1 : Doc.getAt (Doc.updateAt tree pA (.str A')) pA = some (.str A') :=
    Doc.getAt_updateAt_self pA tree A (.str A') hgA
  have gB1 : Doc.getAt (Doc.updateAt tree pA (.str A')) pB = some (.str B) :=
    Doc.getAt_updateAt_ne pB pA tree B A (.str A') hAB.symm hgB hgA
  have gC1 : Doc.getAt (Doc.updateAt tree pA (.str A')) pC = some (.str C) :=
    Doc.getAt_updateAt_ne pC pA tree C A (.str A') hAC.symm hgC hgA
  refine ⟨?_, ?_, ?_, ?_⟩
  · rw [hrun]
    exact Doc.getAt_updateAt_ne pA pC _ A' C (.str C') hAC gA1 gC1
  · rw [hrun]
    exact Doc.getAt_updateAt_ne pB pC _ B C (.str C') hBC gB1 gC1
  · rw [hrun]
    exact Doc.getAt_updateAt_self pC _ C (.str C') gC1
  · rw [hrun]

/-- C1 witness: the three-leaf object with the middle unit rejected. -/
theorem C1_unit_isolation_witness :
    Doc.getAt (JsonH.translateJsonFile Ex.oracleB Ex.tree3).tree [Doc.Key.fld "a"] =
      some (.str "A!") ∧
    Doc.getAt (JsonH.translateJsonFile Ex.oracleB Ex.tree3).tree [Doc.Key.fld "b"] =
      some (.str "B") ∧
    Doc.getAt (JsonH.translateJsonFile Ex.oracleB Ex.tree3).tree [Doc.Key.fld "c"] =
      some (.str "C!") ∧
    (JsonH.translateJsonFile Ex.oracleB Ex.tree3).output =
      some (Doc.serializeJson (JsonH.translateJsonFile Ex.oracleB Ex.tree3).tree) :=
  C1_unit_isolation Ex.tree3 [Doc.Key.fld "a"] [Doc.Key.fld "b"] [Doc.Key.fld "c"]
    "A" "B" "C" "A!" "C!" .emptyResult Ex.oracleB (by decide) (by decide) rfl rfl rfl

namespace JsonH

open Doc JsStr

mutual

theorem collect_complete : ∀ (t : JValue) (pre rel : List Key) (s : String),
    wfDoc t = true → getAt t rel = some (.str s) →
    (jsTrim s.toList).isEmpty = false → pre ++ rel ≠ [] →
    (pre ++ rel, s) ∈ collectTranslatableValues pre t := by
  intro t pre rel s hwf hg ht hne
  cases t with
  | str s0 =>
    cases rel with
    | nil =>
      simp only [getAt, Option.some_inj, JValue.str.injEq] at hg
      simp only [List.append_nil] at hne ⊢
      have hpre : pre.isEmpty = false := by
        cases pre with
        | nil => exact absurd rfl hne
        | cons a l => rfl
      rw [← hg] at ht ⊢
      have ht' : jsTrim s0.toList ≠ [] := by
        intro hdata
        rw [hdata] at ht
        simp at ht
      have htd : jsTrim s0.data ≠ [] := ht'
      simp [collectTranslatableValues, ht, hpre, ht', htd]
    | cons k rel => cases k <;> simp [getAt] at hg
  | arr xs =>
    cases rel with
    | nil => simp [getAt] at hg
    | cons k rel =>
      cases k with
      | fld f => simp [getAt] at hg
      | idx j =>
        cases hx : xs[j]? with
        | none => simp [getAt, hx] at hg
        | some x =>
          simp only [getAt, hx] at hg
          have hwl : wfDocList xs = true := by simpa [wfDoc] using hwf
          have := collect_complete_arr xs pre 0 j x rel s hwl hx hg ht
          simpa [collectTranslatableValues] using this
  | obj fs =>
    cases rel with
    | nil => simp [getAt] at hg
    | cons k rel =>
      cases k with
      | idx j => simp [getAt] at hg
      | fld f =>
        cases hx : lookupField fs f with
        | none => simp [getAt, hx] at hg
        | some v =>
          simp only [getAt, hx] at hg
          have hw : distinctKeys (fs.map Prod.fst) = true ∧ wfDocFields fs = true := by
            simpa [wfDoc] using hwf
          have := collect_complete_obj fs pre f v rel s hw.2 hx hg ht
          simpa [collectTranslatableValues] using this
  | num n => cases rel with
    | nil => simp [getAt] at hg
    | cons k rel => cases k <;> simp [getAt] at hg
  | bool b => cases rel with
    | nil => simp [getAt] at hg
    | cons k rel => cases k <;> simp [getAt] at hg
  | null => cases rel with
    | nil => simp [getAt] at hg
    | cons k rel => cases k <;> simp [getAt] at hg

theorem collect_complete_arr : ∀ (xs : List JValue) (pre : List Key) (i j : Nat)
    (x : JValue) (rel : List Key) (s : String),
    wfDocList xs = true → xs[j]? = some x → getAt x rel = some (.str s) →
    (jsTrim s.toList).isEmpty = false →
    (pre ++ .idx (i + j) :: rel, s) ∈ collectValuesArr pre i xs := by
  intro xs
  match xs with
  | [] => intro pre i j x rel s _ hx; simp at hx
  | x0 :: xs =>
    intro pre i j x rel s hwf hx hg ht
    have hw : wfDoc x0 = true ∧ wfDocList xs = true := by
      simpa [wfDocList] using hwf
    simp only [collectValuesArr, List.mem_append]
    cases j with
    | zero =>
      simp only [List.getElem?_cons_zero, Option.some_inj] at hx
      left
      have hg0 : getAt x0 rel = some (.str s) := by rw [hx]; exact hg
      have := collect_complete x0 (pre ++ [.idx i]) rel s hw.1 hg0 ht (by simp)
      simpa using this
    | succ j' =>
      simp only [List.getElem?_cons_succ] at hx
      right
      have := collect_complete_arr xs pre (i + 1) j' x rel s hw.2 hx hg ht
      have hj : i + 1 + j' = i + (j' + 1) := by omega
      rwa [hj] at this

theorem collect_complete_obj : ∀ (fs : List (String × JValue)) (pre : List Key)
    (k : String) (v : JValue) (rel : List Key) (s : String),
    wfDocFields fs = true → lookupField fs k = some v →
    getAt v rel = some (.str s) → (jsTrim s.toList).isEmpty = false →
    (pre ++ .fld k :: rel, s) ∈ collectValuesObj pre fs := by
  intro fs
  match fs with
  | [] => intro pre k v rel s _ hk; simp [lookupField] at hk
  | (k0, v0) :: fs =>
    intro pre k v rel s hwf hk hg ht
    have hw : wfDoc v0 = true ∧ wfDocFields fs = true := by
      simpa [wfDocFields] using hwf
    simp only [collectValuesObj, List.mem_append]
    by_cases h0 : k0 = k
    · subst h0
      have hk' : v0 = v := by simpa [lookupField] using hk
      left
      have hg0 : getAt v0 rel = some (.str s) := by rw [hk']; exact hg
      have := collect_complete v0 (pre ++ [.fld k0]) rel s hw.1 hg0 ht (by simp)
      simpa using this
    · simp only [lookupField, if_neg h0] at hk
      right
      exact collect_complete_obj fs pre k v rel s hw.2 hk hg ht

end

end JsonH

namespace TomlH

open Doc JsStr

mutual

theorem toml_truthy : ∀ (t : JValue) (pre : List Key) (key : Option Key)
    (p : List Key) (s : String),
    (p, s) ∈ collectTranslatableValues pre key t →
    (∃ k, key = some k ∧ p = pre ∧ keyTruthy k = true) ∨
    (∃ pre1 k1, keyTruthy k1 = true ∧ p = pre1 ++ [k1]) := by
  intro t pre key p s hm
  cases t with
  | str s0 =>
    cases key with
    | none => simp [collectTranslatableValues] at hm
    | some k =>
      simp only [collectTranslatableValues] at hm
      by_cases hc : (!(jsTrim s0.toList).isEmpty && keyTruthy k) = true
      · rw [if_pos hc] at hm
        simp only [List.mem_singleton, Prod.mk.injEq] at hm
        simp only [Bool.and_eq_true] at hc
        exact Or.inl ⟨k, rfl, hm.1, hc.2⟩
      · rw [if_neg hc] at hm
        simp at hm
  | arr xs =>
    simp only [collectTranslatableValues] at hm
    exact Or.inr (toml_truthy_arr xs pre 0 p s hm)
  | obj fs =>
    simp only [collectTranslatableValues] at hm
    exact Or.inr (toml_truthy_obj fs pre p s hm)
  | num n => simp [collectTranslatableValues] at hm
  | bool b => simp [collectTranslatableValues] at hm
  | null => simp [collectTranslatableValues] at hm

theorem toml_truthy_arr : ∀ (xs : List JValue) (pre : List Key) (i : Nat)
    (p : List Key) (s : String),
    (p, s) ∈ collectTomlArr pre i xs →
    ∃ pre1 k1, keyTruthy k1 = true ∧ p = pre1 ++ [k1] := by
  intro xs
  match xs with
  | [] => intro pre i p s hm; simp [collectTomlArr] at hm
  | x :: xs =>
    intro pre i p s hm
    simp only [collectTomlArr, List.mem_append] at hm
    rcases hm with hm | hm
    · rcases toml_truthy x (pre ++ [.idx i]) (some (.idx i)) p s hm with h | h
      · obtain ⟨k, hk, hp, htr⟩ := h
        cases hk
        exact ⟨pre, .idx i, htr, hp⟩
      · exact h
    · exact toml_truthy_arr xs pre (i + 1) p s hm

theorem toml_truthy_obj : ∀ (fs : List (String × JValue)) (pre : List Key)
    (p : List Key) (s : String),
    (p, s) ∈ collectTomlObj pre fs →
    ∃ pre1 k1, keyTruthy k1 = true ∧ p = pre1 ++ [k1] := by
  intro fs
  match fs with
  | [] => intro pre p s hm; simp [collectTomlObj] at hm
  | (k0, v0) :: fs =>
    intro pre p s hm
    simp only [collectTomlObj, List.mem_append] at hm
    rcases hm with hm | hm
    · rcases toml_truthy v0 (pre ++ [.fld k0]) (some (.fld k0)) p s hm with h | h
      · obtain ⟨k, hk, hp, htr⟩ := h
        cases hk
        exact ⟨pre, .fld k0, htr, hp⟩
      · exact h
    · exact toml_truthy_obj fs pre p s hm

end

end TomlH

/-- C7 amended: the JSON extractor includes a leaf exactly when its
value is a non-empty, non-whitespace-only string and it sits inside a
container (non-empty path) — in particular the element at index 0 of a
sequence is extracted and a bare scalar root never is; the TOML
extractor deviates: its guard tests the key for truthiness, so every
unit it emits has a truthy owning key, and the index-0 key of a
sequence is falsy — such leaves are silently skipped. -/
theorem C7_extraction_iff :
    (∀ (tree : Doc.JValue) (p : List Doc.Key) (s : String),
      Doc.wfDoc tree = true →
      ((p, s) ∈ JsonH.collectTranslatableValues [] tree ↔
        Doc.getAt tree p = some (.str s) ∧ p ≠ [] ∧
          (JsStr.jsTrim s.toList).isEmpty = false)) ∧
    (∀ (tree : Doc.JValue) (p : List Doc.Key) (s : String),
      (p, s) ∈ TomlH.collectTranslatableValues [] none tree →
      ∃ pre k, TomlH.keyTruthy k = true ∧ p = pre ++ [k]) ∧
    TomlH.keyTruthy (.idx 0) = false := by
  refine ⟨?_, ?_, rfl⟩
  · intro tree p s hwf
    constructor
    · intro hm
      obtain ⟨rel, hp, hg, ht⟩ := JsonH.collect_sound tree [] p s hwf hm
      simp only [List.nil_append] at hp
      subst hp
      refine ⟨hg, ?_, ht⟩
      intro hnil
      subst hnil
      simp only [Doc.getAt, Option.some_inj] at hg
      subst hg
      simp [JsonH.collectTranslatableValues, ht] at hm
    · intro ⟨hg, hne, ht⟩
      have := JsonH.collect_complete tree [] p s hwf hg ht (by simpa using hne)
      simpa using this
  · intro tree p s hm
    rcases TomlH.toml_truthy tree [] none p s hm with h | h
    · obtain ⟨k, hk, -, -⟩ := h
      cases hk
    · obtain ⟨pre1, k1, htr, hp⟩ := h
      exact ⟨pre1, k1, htr, hp⟩

/-- C7 witness: the iff instantiated on the three-leaf object at the
first leaf's path, plus the index-1-only TOML extraction. -/
theorem C7_extraction_iff_witness :
    (([Doc.Key.fld "a"], "A") ∈ JsonH.collectTranslatableValues [] Ex.tree3 ↔
      Doc.getAt Ex.tree3 [Doc.Key.fld "a"] = some (.str "A") ∧
        [Doc.Key.fld "a"] ≠ [] ∧ (JsStr.jsTrim "A".toList).isEmpty = false) ∧
    (∃ pre k, TomlH.keyTruthy k = true ∧
      [Doc.Key.fld "msgs", Doc.Key.idx 1] = pre ++ [k]) :=
  ⟨C7_extraction_iff.1 Ex.tree3 [Doc.Key.fld "a"] "A" (by decide),
   C7_extraction_iff.2.1 (.obj [("msgs", .arr [.str "Hello", .str "World"])])
     [Doc.Key.fld "msgs", Doc.Key.idx 1] "World" (by decide)⟩

namespace Utils

theorem natVal_append_digit : ∀ (l : List Char) (c : Char),
    natVal (l ++ [c]) = 10 * natVal l + digitVal c := by
  intro l c
  simp [natVal, List.foldl_append]

theorem digitVal_digitChar : ∀ d, d < 10 → digitVal (digitChar d) = d := by
  intro d hd
  interval_cases d <;> rfl

theorem natVal_natCharsF : ∀ (fuel n : Nat), n < fuel →
    natVal (natCharsF fuel n) = n := by
  intro fuel
  induction fuel with
  | zero => intro n h; omega
  | succ f ih =>
    intro n h
    rw [natCharsF]
    by_cases h10 : n < 10
    · rw [if_pos h10]
      simp [natVal, digitVal_digitChar n h10]
    · rw [if_neg h10]
      rw [natVal_append_digit]
      have hlt : n / 10 < n := Nat.div_lt_self (by omega) (by omega)
      rw [ih (n / 10) (by omega)]
      rw [digitVal_digitChar (n % 10) (by omega)]
      omega

theorem natChars_inj : ∀ m n, natChars m = natChars n → m = n := by
  intro m n h
  have hm := natVal_natCharsF (m + 1) m (by omega)
  have hn := natVal_natCharsF (n + 1) n (by omega)
  simp only [natChars] at h
  rw [h] at hm
  rw [← hm, hn]

theorem mkToken_inj : ∀ i j, mkToken i = mkToken j → i = j := by
  intro i j h
  simp only [mkToken, List.append_assoc] at h
  have h1 := List.append_cancel_left h
  have h2 := List.append_cancel_right h1
  exact natChars_inj i j h2

theorem protect_tokens_steps : ∀ (ms : List (List Char)) (st : PState),
    st.map.map Prod.fst = (List.range st.idx).map mkToken → st.idx = st.map.length →
    (ms.foldl protectStep st).map.map Prod.fst =
      (List.range (ms.foldl protectStep st).idx).map mkToken ∧
    (ms.foldl protectStep st).idx = (ms.foldl protectStep st).map.length := by
  intro ms
  induction ms with
  | nil => intro st h1 h2; exact ⟨h1, h2⟩
  | cons m ms ih =>
    intro st h1 h2
    rw [List.foldl_cons]
    apply ih
    · simp [protectStep, h1, List.range_succ]
    · simp [protectStep, h2]

theorem protect_tokens_classes : ∀ (pcs : List PatClass) (st : PState),
    st.map.map Prod.fst = (List.range st.idx).map mkToken → st.idx = st.map.length →
    (pcs.foldl protectClass st).map.map Prod.fst =
      (List.range (pcs.foldl protectClass st).idx).map mkToken ∧
    (pcs.foldl protectClass st).idx = (pcs.foldl protectClass st).map.length := by
  intro pcs
  induction pcs with
  | nil => intro st h1 h2; exact ⟨h1, h2⟩
  | cons pc pcs ih =>
    intro st h1 h2
    rw [List.foldl_cons]
    have hstep := protect_tokens_steps (scanClass pc st.text) st h1 h2
    exact ih (protectClass st pc) hstep.1 hstep.2

end Utils

/-- C8 amended: `protectPlaceholders` walks the pattern classes in their
fixed source order and, within a class, the matches left to right,
giving the `i`-th map entry the placeholder `[[PROTECTED_i]]` — the
recorded placeholders are exactly the tokens of `0, 1, 2, …` in order
and are pairwise distinct — and each step replaces one occurrence via
first-occurrence `replace`; however a later pattern class does re-scan
substituted spans (the brace class can match a span containing an
earlier token — see the counterexample), so the original claim's last
conjunct is dropped. -/
theorem C8_sequential_unique_tokens :
    ∀ t : List Char,
      (Utils.protectPlaceholders t).2.map Prod.fst =
        (List.range (Utils.protectPlaceholders t).2.length).map Utils.mkToken ∧
      List.Nodup ((Utils.protectPlaceholders t).2.map Prod.fst) := by
  intro t
  have hinj : Function.Injective Utils.mkToken := fun a b h => Utils.mkToken_inj a b h
  by_cases ht : t.isEmpty
  · simp [Utils.protectPlaceholders, ht]
  · have hcl := Utils.protect_tokens_classes Utils.PROTECTED_PATTERNS ⟨t, [], 0⟩
      (by simp) (by simp)
    have hmap := hcl.1
    rw [hcl.2] at hmap
    constructor
    · simpa [Utils.protectPlaceholders, ht] using hmap
    · have : (Utils.protectPlaceholders t).2.map Prod.fst =
          (List.range (Utils.protectPlaceholders t).2.length).map Utils.mkToken := by
        simpa [Utils.protectPlaceholders, ht] using hmap
      rw [this]
      exact (List.nodup_range _).map hinj

namespace JsStr

theorem pre_nil : ∀ t : List Char, Pre [] t := fun t => ⟨t, rfl⟩

theorem pre_cons : ∀ (c : Char) (p t : List Char),
    Pre (c :: p) t ↔ ∃ t', t = c :: t' ∧ Pre p t' := by
  intro c p t
  constructor
  · rintro ⟨r, hr⟩
    cases t with
    | nil => simp at hr
    | cons b t' =>
      simp only [List.cons_append, List.cons.injEq] at hr
      exact ⟨t', by rw [hr.1], r, hr.2⟩
  · rintro ⟨t', ht, r, hr⟩
    exact ⟨r, by rw [ht, hr]; rfl⟩

theorem hasPre_iff : ∀ (p t : List Char), hasPre p t = true ↔ Pre p t := by
  intro p
  induction p with
  | nil => intro t; simp [hasPre, pre_nil]
  | cons c p ih =>
    intro t
    cases t with
    | nil =>
      simp only [hasPre, Bool.false_eq_true, false_iff]
      rintro ⟨r, hr⟩
      simp at hr
    | cons b t' =>
      simp only [hasPre, Bool.and_eq_true, decide_eq_true_eq, pre_cons]
      constructor
      · rintro ⟨hc, hp⟩
        subst hc
        exact ⟨t', rfl, (ih t').mp hp⟩
      · rintro ⟨t'', ht, hp⟩
        simp only [List.cons.injEq] at ht
        refine ⟨ht.1.symm, ?_⟩
        rw [ht.2]
        exact (ih t'').mpr hp

theorem pre_append_left : ∀ (p t r : List Char), Pre p t → Pre p (t ++ r) := by
  rintro p t r ⟨q, hq⟩
  exact ⟨q ++ r, by rw [hq, List.append_assoc]⟩

theorem pre_length : ∀ (p t : List Char), Pre p t → p.length ≤ t.length := by
  rintro p t ⟨r, hr⟩
  rw [hr]
  simp

theorem sub_of_pre : ∀ (p t : List Char), Pre p t → Sub p t := by
  rintro p t ⟨r, hr⟩
  exact ⟨[], r, by rw [hr]; rfl⟩

theorem sub_append_left : ∀ (p t r : List Char), Sub p t → Sub p (t ++ r) := by
  rintro p t r ⟨a, b, hab⟩
  exact ⟨a, b ++ r, by rw [hab]; simp⟩

theorem sub_append_right : ∀ (p t r : List Char), Sub p r → Sub p (t ++ r) := by
  rintro p t r ⟨a, b, hab⟩
  exact ⟨t ++ a, b, by rw [hab]; simp⟩

theorem sub_trans : ∀ (p q t : List Char), Sub p q → Sub q t → Sub p t := by
  rintro p q t ⟨a, b, hab⟩ ⟨c, d, hcd⟩
  exact ⟨c ++ a, b ++ d, by rw [hcd, hab]; simp⟩

theorem isAt_iff_exists : ∀ (p t : List Char), Sub p t ↔ ∃ x, IsAt p t x := by
  intro p t
  constructor
  · rintro ⟨a, b, hab⟩
    refine ⟨a.length, ?_⟩
    unfold IsAt
    rw [hab, List.append_assoc, List.drop_left]
    exact ⟨b, rfl⟩
  · rintro ⟨x, r, hr⟩
    refine ⟨t.take x, r, ?_⟩
    rw [List.append_assoc]
    conv_lhs => rw [← List.take_append_drop x t]
    rw [hr]

theorem drop_append_ge : ∀ (a b : List Char) (x : Nat), a.length ≤ x →
    (a ++ b).drop x = b.drop (x - a.length) := by
  intro a b x h
  have h2 : x = a.length + (x - a.length) := by omega
  rw [h2, ← List.drop_drop, List.drop_left]
  congr 1
  omega

theorem firstOcc_some : ∀ (t p : List Char) (x : Nat), firstOcc p t = some x →
    IsAt p t x ∧ ∀ y, y < x → ¬ IsAt p t y := by
  intro t
  induction t with
  | nil =>
    intro p x h
    rw [firstOcc] at h
    by_cases hp : p.isEmpty
    · rw [if_pos hp] at h
      cases h
      refine ⟨?_, by omega⟩
      have : p = [] := by cases p with | nil => rfl | cons a l => simp at hp
      rw [this]
      exact pre_nil _
    · rw [if_neg hp] at h
      cases h
  | cons c t ih =>
    intro p x h
    rw [firstOcc] at h
    by_cases hpre : hasPre p (c :: t)
    · rw [if_pos hpre] at h
      cases h
      refine ⟨(hasPre_iff p (c :: t)).mp hpre, by omega⟩
    · rw [if_neg hpre] at h
      cases hf : firstOcc p t with
      | none => rw [hf] at h; cases h
      | some y =>
        rw [hf] at h
        simp only [Option.map_some'] at h
        cases h
        obtain ⟨h1, h2⟩ := ih p y hf
        refine ⟨h1, ?_⟩
        intro z hz
        cases z with
        | zero =>
          intro hat
          exact hpre ((hasPre_iff p (c :: t)).mpr hat)
        | succ z' =>
          intro hat
          exact h2 z' (by omega) hat

theorem firstOcc_min : ∀ (t p : List Char) (x : Nat), IsAt p t x →
    (∀ y, y < x → ¬ IsAt p t y) → firstOcc p t = some x := by
  intro t
  induction t with
  | nil =>
    intro p x hat hmin
    unfold IsAt at hat
    simp only [List.drop_nil] at hat
    obtain ⟨r, hr⟩ := hat
    have hp : p = [] := by
      cases p with
      | nil => rfl
      | cons a l => simp at hr
    subst hp
    have hx0 : x = 0 := by
      by_contra hx
      exact hmin 0 (by omega) (pre_nil _)
    subst hx0
    rw [firstOcc]
    simp
  | cons c t ih =>
    intro p x hat hmin
    rw [firstOcc]
    cases x with
    | zero =>
      rw [if_pos ((hasPre_iff p (c :: t)).mpr hat)]
    | succ x' =>
      have hnot : ¬ hasPre p (c :: t) = true := by
        intro hh
        exact hmin 0 (by omega) ((hasPre_iff p (c :: t)).mp hh)
      rw [if_neg hnot]
      have : firstOcc p t = some x' := by
        apply ih p x' hat
        intro y hy hat'
        exact hmin (y + 1) (by omega) hat'
      rw [this]
      rfl

theorem exists_min_isAt : ∀ (p t : List Char) (x : Nat), IsAt p t x →
    ∃ z, IsAt p t z ∧ ∀ w, w < z → ¬ IsAt p t w := by
  intro p t x
  induction x using Nat.strong_induction_on with
  | _ x ih =>
    intro hat
    by_cases hmin : ∀ w, w < x → ¬ IsAt p t w
    · exact ⟨x, hat, hmin⟩
    · push_neg at hmin
      obtain ⟨w, hw, hwat⟩ := hmin
      exact ih w hw hwat

theorem firstOcc_none : ∀ (t p : List Char), firstOcc p t = none → ¬ Sub p t := by
  intro t p h hsub
  obtain ⟨x, hx⟩ := (isAt_iff_exists p t).mp hsub
  obtain ⟨z, hzat, hzmin⟩ := exists_min_isAt p t x hx
  rw [firstOcc_min t p z hzat hzmin] at h
  cases h

theorem firstOcc_of_not_sub : ∀ (t p : List Char), ¬ Sub p t → firstOcc p t = none := by
  intro t p h
  cases hf : firstOcc p t with
  | none => rfl
  | some x =>
    obtain ⟨hat, -⟩ := firstOcc_some t p x hf
    exact absurd ((isAt_iff_exists p t).mpr ⟨x, hat⟩) h

theorem hasSub_iff : ∀ (p t : List Char), hasSub p t = true ↔ Sub p t := by
  intro p t
  unfold hasSub
  constructor
  · intro h
    cases hf : firstOcc p t with
    | none => rw [hf] at h; cases h
    | some x =>
      obtain ⟨hat, -⟩ := firstOcc_some t p x hf
      exact (isAt_iff_exists p t).mpr ⟨x, hat⟩
  · intro h
    cases hf : firstOcc p t with
    | none => exact absurd h (firstOcc_none t p hf)
    | some x => rfl

theorem isAt_decomp : ∀ (p t : List Char) (x : Nat), IsAt p t x → p ≠ [] →
    t = t.take x ++ p ++ t.drop (x + p.length) := by
  intro p t x hat hne
  obtain ⟨r, hr⟩ := hat
  have hx : x ≤ t.length := by
    by_contra hc
    rw [List.drop_eq_nil_of_le (by omega)] at hr
    cases p with
    | nil => exact hne rfl
    | cons a l => simp at hr
  have hsplit : t = t.take x ++ t.drop x := (List.take_append_drop x t).symm
  have hdrop : t.drop (x + p.length) = r := by
    have : t.drop (x + p.length) = (t.drop x).drop p.length := by
      rw [List.drop_drop]
    rw [this, hr, List.drop_left]
  rw [hdrop]
  calc t = t.take x ++ t.drop x := hsplit
    _ = t.take x ++ p ++ r := by rw [hr, List.append_assoc]

theorem isAt_middle : ∀ (a p b : List Char), IsAt p (a ++ p ++ b) a.length := by
  intro a p b
  unfold IsAt
  rw [List.append_assoc, List.drop_left]
  exact ⟨b, rfl⟩

theorem getSubstitution_no_dollar : ∀ (repl m b a : List Char),
    (∀ c ∈ repl, c ≠ '$') → getSubstitution m b a repl = repl := by
  intro repl
  induction repl with
  | nil => intro m b a _; rfl
  | cons c r ih =>
    intro m b a h
    have hc : ¬ c = '$' := h c (by simp)
    have hrec := ih m b a (fun c' hc' => h c' (List.mem_cons_of_mem _ hc'))
    rw [getSubstitution.eq_def]
    simp only [if_neg hc, hrec]

theorem replaceFirst_not_sub : ∀ (t pat repl : List Char), ¬ Sub pat t →
    replaceFirst t pat repl = t := by
  intro t pat repl h
  unfold replaceFirst
  rw [firstOcc_of_not_sub t pat h]

end JsStr

namespace Utils

open JsStr

theorem isDigitCh_digitChar : ∀ d, isDigitCh (digitChar d) = true := by
  intro d
  rcases d with _|_|_|_|_|_|_|_|_|d <;> rfl

theorem natCharsF_digits : ∀ (fuel n : Nat) (c : Char), c ∈ natCharsF fuel n →
    isDigitCh c = true := by
  intro fuel
  induction fuel with
  | zero => intro n c h; simp [natCharsF] at h
  | succ f ih =>
    intro n c h
    rw [natCharsF] at h
    by_cases h10 : n < 10
    · rw [if_pos h10] at h
      simp only [List.mem_singleton] at h
      subst h
      exact isDigitCh_digitChar n
    · rw [if_neg h10] at h
      rcases List.mem_append.mp h with h' | h'
      · exact ih (n / 10) c h'
      · simp only [List.mem_singleton] at h'
        subst h'
        exact isDigitCh_digitChar (n % 10)

theorem natChars_digits : ∀ (n : Nat) (c : Char), c ∈ natChars n → isDigitCh c = true :=
  fun n => natCharsF_digits (n + 1) n

theorem digit_ne_lb : ∀ c, isDigitCh c = true → c ≠ '[' := by
  intro c h hc
  subst hc
  simp [isDigitCh] at h

theorem digit_ne_rb : ∀ c, isDigitCh c = true → c ≠ ']' := by
  intro c h hc
  subst hc
  simp [isDigitCh] at h

theorem digit_ne_dollar : ∀ c, isDigitCh c = true → c ≠ '$' := by
  intro c h hc
  subst hc
  simp [isDigitCh] at h

theorem mkToken_explicit : ∀ i, mkToken i =
    '[' :: '[' :: 'P' ::
      (['R', 'O', 'T', 'E', 'C', 'T', 'E', 'D', '_'] ++ natChars i ++ [']', ']']) := by
  intro i
  rfl

theorem lb_not_mem_tokRest : ∀ i,
    '[' ∉ (['R', 'O', 'T', 'E', 'C', 'T', 'E', 'D', '_'] ++ natChars i ++ [']', ']']) := by
  intro i h
  rcases List.mem_append.mp h with h' | h'
  · rcases List.mem_append.mp h' with h'' | h''
    · simp at h''
    · exact digit_ne_lb '[' (natChars_digits i '[' h'') rfl
  · simp at h'

theorem mkToken_ne_nil : ∀ i, mkToken i ≠ [] := by
  intro i h
  rw [mkToken_explicit] at h
  cases h

theorem mkToken_no_dollar : ∀ i c, c ∈ mkToken i → c ≠ '$' := by
  intro i c h
  rw [mkToken_explicit] at h
  rcases List.mem_cons.mp h with h' | h'
  · subst h'; decide
  · rcases List.mem_cons.mp h' with h'' | h''
    · subst h''; decide
    · rcases List.mem_cons.mp h'' with h3 | h3
      · subst h3; decide
      · rcases List.mem_append.mp h3 with h4 | h4
        · rcases List.mem_append.mp h4 with h5 | h5
          · intro hc; subst hc; simp at h5
          · exact digit_ne_dollar c (natChars_digits i c h5)
        · intro hc; subst hc; simp at h4

theorem sub_of_pre_drop : ∀ (p a : List Char) (x : Nat), Pre p (a.drop x) → Sub p a := by
  rintro p a x ⟨r, hr⟩
  refine ⟨a.take x, r, ?_⟩
  rw [List.append_assoc]
  conv_lhs => rw [← List.take_append_drop x a]
  rw [hr]

theorem pre_head_of_append : ∀ (c : Char) (q r b : List Char), r ≠ [] →
    Pre (c :: q) (r ++ b) → ∃ rt, r = c :: rt ∧ Pre q (rt ++ b) := by
  intro c q r b hne hp
  cases r with
  | nil => exact absurd rfl hne
  | cons rh rt =>
    rw [List.cons_append, pre_cons] at hp
    obtain ⟨t', ht, hq⟩ := hp
    simp only [List.cons.injEq] at ht
    exact ⟨rt, by rw [ht.1], by rw [← ht.2] at hq; exact hq⟩

theorem pre_append_split : ∀ (x q y : List Char), Pre q (x ++ y) →
    Pre q x ∨ ∃ q2, q = x ++ q2 ∧ Pre q2 y := by
  intro x
  induction x with
  | nil => intro q y h; right; exact ⟨q, rfl, h⟩
  | cons a x ih =>
    intro q y h
    cases q with
    | nil => left; exact pre_nil _
    | cons b q =>
      rw [List.cons_append, pre_cons] at h
      obtain ⟨t', ht, hp⟩ := h
      simp only [List.cons.injEq] at ht
      obtain ⟨hba, ht'⟩ := ht
      subst hba
      rw [← ht'] at hp
      rcases ih q y hp with h' | h'
      · left
        rw [pre_cons]
        exact ⟨x, rfl, h'⟩
      · obtain ⟨q2, hq, hp2⟩ := h'
        right
        exact ⟨q2, by rw [hq]; rfl, hp2⟩

theorem pre_append_cancel : ∀ (h u v : List Char), Pre (h ++ u) (h ++ v) → Pre u v := by
  intro h
  induction h with
  | nil => intro u v hp; exact hp
  | cons c h ih =>
    intro u v hp
    rw [List.cons_append, List.cons_append, pre_cons] at hp
    obtain ⟨t', ht, hp'⟩ := hp
    simp only [List.cons.injEq] at ht
    rw [← ht.2] at hp'
    exact ih u v hp'

theorem digits_close_pre : ∀ (d1 d2 b : List Char),
    (∀ c ∈ d1, isDigitCh c = true) → (∀ c ∈ d2, isDigitCh c = true) →
    Pre (d1 ++ [']', ']']) (d2 ++ ([']', ']'] ++ b)) → d1 = d2 := by
  intro d1
  induction d1 with
  | nil =>
    intro d2 b _ h2 hp
    cases d2 with
    | nil => rfl
    | cons c2 d2' =>
      rw [List.nil_append, List.cons_append] at hp
      rw [pre_cons] at hp
      obtain ⟨t', ht, -⟩ := hp
      simp only [List.cons.injEq] at ht
      have hd := h2 c2 (by simp)
      exact absurd ht.1 (digit_ne_rb c2 hd)
  | cons c1 d1' ih =>
    intro d2 b h1 h2 hp
    cases d2 with
    | nil =>
      rw [List.cons_append, List.nil_append, pre_cons] at hp
      obtain ⟨t', ht, -⟩ := hp
      simp only [List.cons_append, List.cons.injEq] at ht
      have hd := h1 c1 (by simp)
      exact absurd ht.1.symm (digit_ne_rb c1 hd)
    | cons c2 d2' =>
      rw [List.cons_append, List.cons_append, pre_cons] at hp
      obtain ⟨t', ht, hp'⟩ := hp
      simp only [List.cons.injEq] at ht
      obtain ⟨hc, ht'⟩ := ht
      rw [← ht'] at hp'
      have := ih d2' b (fun c hc' => h1 c (List.mem_cons_of_mem _ hc'))
        (fun c hc' => h2 c (List.mem_cons_of_mem _ hc')) hp'
      rw [hc, this]

end Utils

namespace Utils

open JsStr

/-- Occurrences of a placeholder token in a text of the form
`a ++ mkToken i ++ b` lie entirely inside `a`, entirely inside `b`, or
coincide exactly with the embedded token: tokens cannot overlap each
other or surrounding text, because an opening bracket occurs in a token
only at its first two positions and distinct indices give distinct
digit runs. -/
theorem token_overlap : ∀ (i j : Nat) (a b : List Char) (x : Nat),
    IsAt (mkToken j) (a ++ mkToken i ++ b) x →
    Sub (mkToken j) a ∨ Sub (mkToken j) b ∨ (j = i ∧ x = a.length) := by
  intro i j a b x hat
  unfold IsAt at hat
  by_cases hx : x < a.length
  · -- the occurrence starts inside `a`
    rw [List.append_assoc, List.drop_append_of_le_length (by omega)] at hat
    rcases pre_append_split (a.drop x) (mkToken j) (mkToken i ++ b) hat with h | h
    · exact Or.inl (sub_of_pre_drop _ a x h)
    · obtain ⟨q2, htok, hq2⟩ := h
      cases q2 with
      | nil =>
        rw [List.append_nil] at htok
        exact Or.inl (sub_of_pre_drop _ a x ⟨[], by rw [htok, List.append_nil]⟩)
      | cons c q2' =>
        exfalso
        obtain ⟨rt, hrt, hq2'⟩ :=
          pre_head_of_append c q2' (mkToken i) b (mkToken_ne_nil i) hq2
        rw [mkToken_explicit] at hrt
        simp only [List.cons.injEq] at hrt
        obtain ⟨hc1, hc2⟩ := hrt
        subst hc1
        rw [← hc2] at hq2'
        cases hdrop : a.drop x with
        | nil =>
          have hlen := congrArg List.length hdrop
          simp at hlen
          omega
        | cons a0 a2 =>
          rw [hdrop, mkToken_explicit] at htok
          simp only [List.cons_append, List.cons.injEq] at htok
          obtain ⟨-, htok2⟩ := htok
          cases a2 with
          | nil =>
            simp only [List.nil_append, List.cons.injEq] at htok2
            obtain ⟨-, hq2eq⟩ := htok2
            rw [← hq2eq, List.cons_append, pre_cons] at hq2'
            obtain ⟨t', ht', -⟩ := hq2'
            rw [List.cons_append] at ht'
            simp only [List.cons.injEq] at ht'
            exact absurd ht'.1 (by decide)
          | cons a1 a3 =>
            simp only [List.cons_append, List.cons.injEq] at htok2
            obtain ⟨-, htok3⟩ := htok2
            cases a3 with
            | nil =>
              simp only [List.nil_append, List.cons.injEq] at htok3
              exact absurd htok3.1 (by decide)
            | cons a4 a5 =>
              simp only [List.cons_append, List.cons.injEq] at htok3
              obtain ⟨-, htok4⟩ := htok3
              apply lb_not_mem_tokRest j
              have hmem : '[' ∈ a5 ++ '[' :: q2' := by simp
              rw [← htok4] at hmem
              simpa using hmem
  · by_cases hx2 : x < a.length + (mkToken i).length
    · -- the occurrence starts inside the embedded token
      have hxa : a.length ≤ x := by omega
      rw [List.append_assoc, drop_append_ge a _ x hxa,
        List.drop_append_of_le_length (by omega)] at hat
      by_cases hx0 : x - a.length = 0
      · -- it starts exactly at the token: the indices must agree
        rw [hx0, List.drop_zero] at hat
        right; right
        refine ⟨?_, by omega⟩
        rw [show mkToken j = ('[' :: '[' :: 'P' :: ['R', 'O', 'T', 'E', 'C', 'T', 'E', 'D', '_'])
              ++ (natChars j ++ [']', ']']) from by rw [mkToken_explicit]; rfl] at hat
        rw [show mkToken i ++ b = ('[' :: '[' :: 'P' :: ['R', 'O', 'T', 'E', 'C', 'T', 'E', 'D', '_'])
              ++ (natChars i ++ ([']', ']'] ++ b)) from by rw [mkToken_explicit]; simp] at hat
        have := pre_append_cancel _ _ _ hat
        exact natChars_inj j i (digits_close_pre (natChars j) (natChars i) b
          (natChars_digits j) (natChars_digits i) this)
      · -- it starts strictly inside the token: impossible
        exfalso
        by_cases hx1 : x - a.length = 1
        · rw [hx1] at hat
          rw [show ((mkToken i).drop 1) = '[' :: 'P' ::
              (['R', 'O', 'T', 'E', 'C', 'T', 'E', 'D', '_'] ++ natChars i ++ [']', ']'])
            from by rw [mkToken_explicit]; rfl] at hat
          rw [mkToken_explicit j, List.cons_append, pre_cons] at hat
          obtain ⟨t', ht', hat'⟩ := hat
          simp only [List.cons_append, List.cons.injEq] at ht'
          rw [← ht'.2, pre_cons] at hat'
          obtain ⟨t'', ht'', -⟩ := hat'
          simp only [List.cons_append, List.cons.injEq] at ht''
          exact absurd ht''.1 (by decide)
        · obtain ⟨x'', hx''⟩ : ∃ x'', x - a.length = x'' + 2 :=
            ⟨x - a.length - 2, by omega⟩
          rw [hx'', mkToken_explicit i] at hat
          simp only [List.drop_succ_cons] at hat
          have hx2' : x - a.length < (mkToken i).length := by omega
          rw [mkToken_explicit i] at hx2'
          simp at hx2'
          have hrne : List.drop x''
              ('P' :: (['R', 'O', 'T', 'E', 'C', 'T', 'E', 'D', '_'] ++
                natChars i ++ [']', ']'])) ≠ [] := by
            intro hnil
            have hlen := congrArg List.length hnil
            simp at hlen
            omega
          rw [mkToken_explicit j] at hat
          obtain ⟨rt, hrt, -⟩ := pre_head_of_append _ _ _ b hrne hat
          have hmem : '[' ∈ 'P' :: (['R', 'O', 'T', 'E', 'C', 'T', 'E', 'D', '_'] ++
              natChars i ++ [']', ']']) := by
            apply List.mem_of_mem_drop
            rw [hrt]
            exact List.mem_cons_self '[' rt
          rcases List.mem_cons.mp hmem with h | h
          · exact absurd h (by decide)
          · exact lb_not_mem_tokRest i h
    · -- the occurrence starts past the token: it lies inside `b`
      have : a.length + (mkToken i).length ≤ x := by omega
      rw [drop_append_ge (a ++ mkToken i) b x (by simp; omega)] at hat
      exact Or.inr (Or.inl (sub_of_pre_drop _ b _ hat))

end Utils

namespace Utils

open JsStr

theorem sub_token_cases : ∀ (i j : Nat) (a b : List Char),
    Sub (mkToken j) (a ++ mkToken i ++ b) →
    Sub (mkToken j) a ∨ Sub (mkToken j) b ∨ j = i := by
  intro i j a b hsub
  obtain ⟨x, hx⟩ := (isAt_iff_exists _ _).mp hsub
  rcases token_overlap i j a b x hx with h | h | h
  · exact Or.inl h
  · exact Or.inr (Or.inl h)
  · exact Or.inr (Or.inr h.1)

theorem firstOcc_middle : ∀ (i : Nat) (a b : List Char),
    ¬ Sub (mkToken i) a → ¬ Sub (mkToken i) b →
    firstOcc (mkToken i) (a ++ mkToken i ++ b) = some a.length := by
  intro i a b ha hb
  apply firstOcc_min
  · exact isAt_middle a (mkToken i) b
  · intro y hy hat
    rcases token_overlap i i a b y hat with h | h | h
    · exact ha h
    · exact hb h
    · omega

theorem replaceFirst_middle : ∀ (i : Nat) (a b m : List Char),
    ¬ Sub (mkToken i) a → ¬ Sub (mkToken i) b → (∀ c ∈ m, c ≠ '$') →
    replaceFirst (a ++ mkToken i ++ b) (mkToken i) m = a ++ m ++ b := by
  intro i a b m ha hb hm
  have htake : (a ++ mkToken i ++ b).take a.length = a := by
    rw [List.append_assoc]
    exact List.take_left a _
  have hdrop : (a ++ mkToken i ++ b).drop (a.length + (mkToken i).length) = b := by
    rw [show a.length + (mkToken i).length = (a ++ mkToken i).length from by simp]
    exact List.drop_left _ _
  have hstep : replaceFirst (a ++ mkToken i ++ b) (mkToken i) m =
      (a ++ mkToken i ++ b).take a.length ++
        getSubstitution (mkToken i) ((a ++ mkToken i ++ b).take a.length)
          ((a ++ mkToken i ++ b).drop (a.length + (mkToken i).length)) m ++
        (a ++ mkToken i ++ b).drop (a.length + (mkToken i).length) := by
    unfold replaceFirst
    rw [firstOcc_middle i a b ha hb]
  rw [hstep, htake, hdrop, getSubstitution_no_dollar m _ _ _ hm]

theorem undo_nil : ∀ t, undo [] t = t := fun _ => rfl

theorem undo_snoc : ∀ (map : List (List Char × List Char)) (pr : List Char × List Char)
    (t : List Char), undo (map ++ [pr]) t = undo map (replaceFirst t pr.1 pr.2) := by
  intro map pr t
  unfold undo
  rw [List.reverse_append]
  rfl

theorem undo_empty_text : ∀ (map : List (List Char × List Char)),
    (∀ pr ∈ map, pr.1 ≠ ([] : List Char)) → undo map [] = [] := by
  intro map h
  unfold undo
  have : ∀ pr ∈ map.reverse, pr.1 ≠ ([] : List Char) := by
    intro pr hpr
    exact h pr (List.mem_reverse.mp hpr)
  generalize map.reverse = l at this
  induction l with
  | nil => rfl
  | cons pr l ih =>
    rw [List.foldl_cons]
    have h1 : replaceFirst [] pr.1 pr.2 = [] := by
      apply replaceFirst_not_sub
      rintro ⟨x, y, hxy⟩
      have hlen := congrArg List.length hxy
      simp at hlen
      have hob : pr.1.length = 0 := by omega
      exact (this pr (by simp)) (List.eq_nil_of_length_eq_zero hob)
    rw [h1]
    exact ih (fun pr' hpr' => this pr' (List.mem_cons_of_mem _ hpr'))

end Utils

namespace Utils

open JsStr

theorem scan2_mem (ok : Char → Char → Bool) : ∀ (t m : List Char), m ∈ scan2 ok t →
    ∃ c1 c2, m = [c1, c2] ∧ ok c1 c2 = true
  | [], m => by simp [scan2]
  | [c], m => by simp [scan2]
  | c1 :: c2 :: rest, m => by
    intro hm
    rw [scan2] at hm
    by_cases hok : ok c1 c2 = true
    · rw [if_pos hok] at hm
      rcases List.mem_cons.mp hm with h | h
      · exact ⟨c1, c2, h, hok⟩
      · exact scan2_mem ok rest m h
    · rw [if_neg hok] at hm
      exact scan2_mem ok (c2 :: rest) m hm

theorem breakAtRB_mem : ∀ (cs b a : List Char), breakAtRB cs = some (b, a) →
    (∀ c ∈ b, c ∈ cs) ∧ (∀ c ∈ a, c ∈ cs) := by
  intro cs
  induction cs with
  | nil => intro b a h; simp [breakAtRB] at h
  | cons c cs ih =>
    intro b a h
    rw [breakAtRB] at h
    by_cases hc : c = '}'
    · rw [if_pos hc] at h
      cases h
      refine ⟨fun c' hc' => by simp at hc', fun c' hc' => List.mem_cons_of_mem _ hc'⟩
    · rw [if_neg hc] at h
      cases hb : breakAtRB cs with
      | none => rw [hb] at h; simp at h
      | some p =>
        rw [hb] at h
        simp at h
        obtain ⟨h1, h2⟩ := h
        obtain ⟨ih1, ih2⟩ := ih p.1 p.2 (by rw [hb])
        subst h1
        subst h2
        constructor
        · intro c' hc'
          rcases List.mem_cons.mp hc' with h | h
          · subst h; simp
          · exact List.mem_cons_of_mem _ (ih1 c' h)
        · intro c' hc'
          exact List.mem_cons_of_mem _ (ih2 c' hc')

theorem scanBraceF_mem : ∀ (fuel : Nat) (t m : List Char), m ∈ scanBraceF fuel t →
    m ≠ [] ∧ ∀ c ∈ m, c ∈ t ∨ c = '{' ∨ c = '}' := by
  intro fuel
  induction fuel with
  | zero => intro t m hm; simp [scanBraceF] at hm
  | succ f ih =>
    intro t m hm
    cases t with
    | nil => simp [scanBraceF] at hm
    | cons c cs =>
      rw [scanBraceF] at hm
      by_cases hc : c = '{'
      · rw [if_pos hc] at hm
        split at hm
        · rename_i body after hb
          obtain ⟨hbm, ham⟩ := breakAtRB_mem cs body after hb
          by_cases hbe : body.isEmpty = true
          · rw [if_pos hbe] at hm
            obtain ⟨h1, h2⟩ := ih cs m hm
            refine ⟨h1, fun c' hc' => ?_⟩
            rcases h2 c' hc' with h | h
            · exact Or.inl (List.mem_cons_of_mem _ h)
            · exact Or.inr h
          · rw [if_neg hbe] at hm
            rcases List.mem_cons.mp hm with h | h
            · subst h
              refine ⟨by simp, fun c' hc' => ?_⟩
              rcases List.mem_cons.mp hc' with h' | h'
              · exact Or.inr (Or.inl h')
              · rcases List.mem_append.mp h' with h'' | h''
                · exact Or.inl (List.mem_cons_of_mem _ (hbm c' h''))
                · simp at h''
                  exact Or.inr (Or.inr h'')
            · obtain ⟨h1, h2⟩ := ih after m h
              refine ⟨h1, fun c' hc' => ?_⟩
              rcases h2 c' hc' with h' | h'
              · exact Or.inl (List.mem_cons_of_mem _ (ham c' h'))
              · exact Or.inr h'
        · obtain ⟨h1, h2⟩ := ih cs m hm
          refine ⟨h1, fun c' hc' => ?_⟩
          rcases h2 c' hc' with h | h
          · exact Or.inl (List.mem_cons_of_mem _ h)
          · exact Or.inr h
      · rw [if_neg hc] at hm
        obtain ⟨h1, h2⟩ := ih cs m hm
        refine ⟨h1, fun c' hc' => ?_⟩
        rcases h2 c' hc' with h | h
        · exact Or.inl (List.mem_cons_of_mem _ h)
        · exact Or.inr h

theorem scanClass_good : ∀ (pc : PatClass) (t m : List Char),
    (∀ c ∈ t, c ≠ '$') → m ∈ scanClass pc t →
    m ≠ [] ∧ ∀ c ∈ m, c ≠ '$' := by
  intro pc t m ht hm
  cases pc with
  | color =>
    obtain ⟨c1, c2, hm', hok⟩ := scan2_mem colorOk t m hm
    subst hm'
    simp only [colorOk, Bool.and_eq_true, decide_eq_true_eq] at hok
    refine ⟨by simp, fun c hc => ?_⟩
    rcases List.mem_cons.mp hc with h | h
    · subst h
      rw [hok.1]
      decide
    · simp only [List.mem_singleton] at h
      subst h
      intro hc2
      subst hc2
      have : colorChars.contains '$' = false := by decide
      rw [this] at hok
      exact Bool.noConfusion hok.2
  | printf =>
    obtain ⟨c1, c2, hm', hok⟩ := scan2_mem printfOk t m hm
    subst hm'
    simp only [printfOk, Bool.and_eq_true, decide_eq_true_eq] at hok
    refine ⟨by simp, fun c hc => ?_⟩
    rcases List.mem_cons.mp hc with h | h
    · subst h
      rw [hok.1]
      decide
    · simp only [List.mem_singleton] at h
      subst h
      intro hc2
      subst hc2
      have : printfChars.contains '$' = false := by decide
      rw [this] at hok
      exact Bool.noConfusion hok.2
  | pctpct =>
    obtain ⟨c1, c2, hm', hok⟩ := scan2_mem pctOk t m hm
    subst hm'
    simp only [pctOk, Bool.and_eq_true, decide_eq_true_eq] at hok
    refine ⟨by simp, fun c hc => ?_⟩
    rcases List.mem_cons.mp hc with h | h
    · subst h; rw [hok.1]; decide
    · simp only [List.mem_singleton] at h
      subst h
      rw [hok.2]
      decide
  | brace =>
    obtain ⟨h1, h2⟩ := scanBraceF_mem t.length t m hm
    refine ⟨h1, fun c hc => ?_⟩
    rcases h2 c hc with h | h | h
    · exact ht c h
    · subst h; decide
    · subst h; decide

theorem protectStep_inv : ∀ (t0 : List Char) (st : PState) (m : List Char),
    ProtInv t0 st → m ≠ [] → (∀ c ∈ m, c ≠ '$') → ProtInv t0 (protectStep st m) := by
  intro t0 st m hinv hne hm
  obtain ⟨hundo, hfresh, hdollar, hmapne⟩ := hinv
  cases hocc : firstOcc m st.text with
  | none =>
    have htext : replaceFirst st.text m (mkToken st.idx) = st.text := by
      unfold replaceFirst
      rw [hocc]
    refine ⟨?_, ?_, ?_, ?_⟩
    · show undo (st.map ++ [(mkToken st.idx, m)])
        (replaceFirst st.text m (mkToken st.idx)) = t0
      rw [htext, undo_snoc]
      rw [replaceFirst_not_sub st.text (mkToken st.idx) m (hfresh st.idx (le_refl _))]
      exact hundo
    · intro j hj
      show ¬ Sub (mkToken j) (replaceFirst st.text m (mkToken st.idx))
      rw [htext]
      exact hfresh j (by simp [protectStep] at hj; omega)
    · intro c hc
      simp only [protectStep] at hc
      rw [htext] at hc
      exact hdollar c hc
    · intro pr hpr
      simp only [protectStep] at hpr
      rcases List.mem_append.mp hpr with h | h
      · exact hmapne pr h
      · simp only [List.mem_singleton] at h
        subst h
        exact mkToken_ne_nil st.idx
  | some x =>
    obtain ⟨hat, -⟩ := firstOcc_some st.text m x hocc
    have hdecomp := isAt_decomp m st.text x hat hne
    have hsubA : ∀ j, st.idx ≤ j → ¬ Sub (mkToken j) (st.text.take x) := by
      intro j hj hsub
      apply hfresh j hj
      rw [hdecomp]
      exact sub_append_left _ _ _ (sub_append_left _ _ _ hsub)
    have hsubB : ∀ j, st.idx ≤ j → ¬ Sub (mkToken j) (st.text.drop (x + m.length)) := by
      intro j hj hsub
      apply hfresh j hj
      rw [hdecomp]
      exact sub_append_right _ _ _ hsub
    have htext : replaceFirst st.text m (mkToken st.idx) =
        st.text.take x ++ mkToken st.idx ++ st.text.drop (x + m.length) := by
      unfold replaceFirst
      rw [hocc]
      show List.take x st.text ++
          getSubstitution m (List.take x st.text) (List.drop (x + m.length) st.text)
            (mkToken st.idx) ++ List.drop (x + m.length) st.text = _
      rw [getSubstitution_no_dollar (mkToken st.idx) _ _ _
        (fun c hc => mkToken_no_dollar st.idx c hc)]
    refine ⟨?_, ?_, ?_, ?_⟩
    · show undo (st.map ++ [(mkToken st.idx, m)])
        (replaceFirst st.text m (mkToken st.idx)) = t0
      rw [htext, undo_snoc]
      have := replaceFirst_middle st.idx (st.text.take x) (st.text.drop (x + m.length)) m
        (hsubA st.idx (le_refl _)) (hsubB st.idx (le_refl _)) hm
      rw [this, ← hdecomp]
      exact hundo
    · intro j hj
      simp only [protectStep] at hj ⊢
      rw [htext]
      intro hsub
      rcases sub_token_cases st.idx j _ _ hsub with h | h | h
      · exact hsubA j (by omega) h
      · exact hsubB j (by omega) h
      · omega
    · intro c hc
      simp only [protectStep] at hc
      rw [htext] at hc
      rcases List.mem_append.mp hc with h | h
      · rcases List.mem_append.mp h with h' | h'
        · exact hdollar c (List.mem_of_mem_take h')
        · exact mkToken_no_dollar st.idx c h'
      · exact hdollar c (List.mem_of_mem_drop h)
    · intro pr hpr
      simp only [protectStep] at hpr
      rcases List.mem_append.mp hpr with h | h
      · exact hmapne pr h
      · simp only [List.mem_singleton] at h
        subst h
        exact mkToken_ne_nil st.idx

end Utils

namespace Utils

open JsStr

theorem protectSteps_inv : ∀ (ms : List (List Char)) (t0 : List Char) (st : PState),
    ProtInv t0 st → (∀ m ∈ ms, m ≠ [] ∧ ∀ c ∈ m, c ≠ '$') →
    ProtInv t0 (ms.foldl protectStep st) := by
  intro ms
  induction ms with
  | nil => intro t0 st h _; exact h
  | cons m ms ih =>
    intro t0 st h hg
    simp only [List.foldl_cons]
    apply ih
    · exact protectStep_inv t0 st m h (hg m (List.mem_cons_self m ms)).1
        (hg m (List.mem_cons_self m ms)).2
    · intro m' hm'
      exact hg m' (List.mem_cons_of_mem _ hm')

theorem protectClass_inv : ∀ (t0 : List Char) (st : PState) (pc : PatClass),
    ProtInv t0 st → ProtInv t0 (protectClass st pc) := by
  intro t0 st pc h
  apply protectSteps_inv _ t0 st h
  intro m hm
  exact scanClass_good pc st.text m h.2.2.1 hm

theorem protectClasses_inv : ∀ (pcs : List PatClass) (t0 : List Char) (st : PState),
    ProtInv t0 st → ProtInv t0 (pcs.foldl protectClass st) := by
  intro pcs
  induction pcs with
  | nil => intro t0 st h; exact h
  | cons pc pcs ih =>
    intro t0 st h
    simp only [List.foldl_cons]
    exact ih t0 _ (protectClass_inv t0 st pc h)

end Utils

/-- C2: the mask/restore round trip `restorePlaceholders (protectPlaceholders t)
= t` does NOT hold for every input string (see the counterexample theorem), but
it does hold on the amended domain: every text that neither contains the
substring `[[PROTECTED_` nor the character `$`.  On that domain every
substituted token is fresh in the remaining text, so restoring in reverse
insertion order undoes each substitution exactly. -/
theorem C2_roundtrip_amended : ∀ t : List Char,
    JsStr.hasSub Utils.tokHead t = false → t.contains '$' = false →
    Utils.roundTrip t = t := by
  intro t hs hd
  have hnsub : ¬ JsStr.Sub Utils.tokHead t := by
    intro h
    have h' := (JsStr.hasSub_iff Utils.tokHead t).mpr h
    rw [hs] at h'
    exact Bool.noConfusion h'
  have hdol : ∀ c ∈ t, c ≠ '$' := by
    simp at hd
    intro c hc he
    subst he
    exact hd hc
  by_cases hemp : t.isEmpty = true
  · have ht : t = [] := List.isEmpty_iff.mp hemp
    subst ht
    rfl
  · have hpp : Utils.protectPlaceholders t =
        ((Utils.PROTECTED_PATTERNS.foldl Utils.protectClass ⟨t, [], 0⟩).text,
         (Utils.PROTECTED_PATTERNS.foldl Utils.protectClass ⟨t, [], 0⟩).map) := by
      unfold Utils.protectPlaceholders
      rw [if_neg hemp]
    have hinv0 : Utils.ProtInv t ⟨t, [], 0⟩ := by
      refine ⟨Utils.undo_nil t, ?_, hdol, by simp⟩
      intro j _ hsub
      have hpre : JsStr.Pre Utils.tokHead (Utils.mkToken j) :=
        ⟨Utils.natChars j ++ [']', ']'], by simp [Utils.mkToken]⟩
      exact hnsub (JsStr.sub_trans _ _ _ (JsStr.sub_of_pre _ _ hpre) hsub)
    obtain ⟨hundo, hfr, hdol2, hnemap⟩ :=
      Utils.protectClasses_inv Utils.PROTECTED_PATTERNS t ⟨t, [], 0⟩ hinv0
    unfold Utils.roundTrip
    rw [hpp]
    unfold Utils.restorePlaceholders
    by_cases hcond : ((Utils.PROTECTED_PATTERNS.foldl Utils.protectClass
        ⟨t, [], 0⟩).text.isEmpty ||
        (Utils.PROTECTED_PATTERNS.foldl Utils.protectClass ⟨t, [], 0⟩).map.isEmpty) = true
    · rw [if_pos hcond]
      simp only [Bool.or_eq_true] at hcond
      rcases hcond with h | h
      · have htx := List.isEmpty_iff.mp h
        rw [htx]
        rw [htx, Utils.undo_empty_text _ hnemap] at hundo
        exact hundo
      · have hmp := List.isEmpty_iff.mp h
        rw [hmp, Utils.undo_nil] at hundo
        exact hundo
    · rw [if_neg hcond]
      exact hundo

/-- Witness for C2: the amended round trip evaluated at the sentence
`"&aHello {player}"`, which contains a color code and a brace placeholder
and lies in the amended domain. -/
theorem C2_roundtrip_amended_witness :
    JsStr.hasSub Utils.tokHead ("&aHello {player}".toList) = false ∧
    ("&aHello {player}".toList).contains '$' = false ∧
    Utils.roundTrip ("&aHello {player}".toList) = "&aHello {player}".toList :=
  ⟨by decide, by decide, C2_roundtrip_amended _ (by decide) (by decide)⟩
